import Mathlib

/-!
# Verification of the A-DBSCAN core (`esda.adbscan`) and the FDR helper (`esda.util`)

This file gives a shallow embedding of the ensemble-clustering core:

* `_one_draw`, `ADBSCAN.fit` (the orchestrator, here `fitE`),
* `remap_lbls` / `_remap_lbls_single` / `_remap_n_expand` (label alignment),
* `ensemble` (majority-vote consensus), and
* `fdr` (false-discovery-rate cut-off),

and proves/refutes the frozen claims about them.

Coordinates are modelled as pairs of rationals, label matrices as lists of
columns, and pandas/numpy operations by their documented semantics:
`Series.unique().shape[0]` is `List.dedup.length`, `groupby(...).mean()` is
a mean over the index fibers with keys in ascending order, `cKDTree.query`
is the index of the first centroid of minimal distance, and
`Counter(a).most_common(1)[0]` is the first maximal entry of a tally taken
in first-encounter order.  The external density primitive (DBSCAN) and the
randomness of each draw (`np.random.shuffle`) are injected parameters of the
orchestrator, as the specification treats them as black boxes.
-/

namespace Adbscan

/-- A 2-D point: the (X, Y) coordinates of one observation. -/
abbrev Pt : Type := ℚ × ℚ

/-- Squared Euclidean distance; nearest-neighbour queries are insensitive to
the square. -/
def sqDist (a b : Pt) : ℚ := (a.1 - b.1) ^ 2 + (a.2 - b.2) ^ 2

/-- Index (and squared distance) of the first nearest point of a list to `q`:
ties are broken towards the earlier index, as `cKDTree.query` does. -/
def nearestFrom (q : Pt) : List Pt → Option (ℕ × ℚ)
  | [] => none
  | c :: cs =>
    match nearestFrom q cs with
    | none => some (0, sqDist q c)
    | some (i, d) => if sqDist q c ≤ d then some (0, sqDist q c) else some (i + 1, d)

/-- The index returned by a nearest-neighbour query on a (nonempty) list. -/
def nearestIdx (cs : List Pt) (q : Pt) : ℕ :=
  match nearestFrom q cs with
  | some (i, _) => i
  | none => 0

/-- Index and value of the first maximal entry of a list of naturals. -/
def argmaxFirstAux : List ℕ → Option (ℕ × ℕ)
  | [] => none
  | a :: t =>
    match argmaxFirstAux t with
    | none => some (0, a)
    | some (j, v) => if a < v then some (j + 1, v) else some (0, a)

/-- Index of the first maximal entry of a list of naturals; models
`s[s == s.max()].iloc[[0]].index[0]` on a pandas Series. -/
def argmaxFirst (l : List ℕ) : Option ℕ := (argmaxFirstAux l).map (·.1)

section Labels

variable {L : Type} [LinearOrder L]

/-- `x.unique().shape[0]`: the number of distinct values of a column
(noise included). -/
def uniqueCount (col : List L) : ℕ := col.dedup.length

/-- Reference-run selection of `remap_lbls` (line 315–317): the first column
with the maximal number of distinct values. -/
def refSelect (cols : List (List L)) : Option ℕ :=
  argmaxFirst (cols.map uniqueCount)

/-- The distinct values of a column in ascending order with the noise
sentinel removed: the index of `groupby(col).mean().drop(noise)`. -/
def nonNoiseKeys (noise : L) (col : List L) : List L :=
  (col.dedup.insertionSort (· ≤ ·)).filter (· ≠ noise)

/-- Positions of the rows of a column carrying the value `v`
(`d` is a don't-care default for the out-of-range lookup). -/
def fiberIdxs (d : L) (col : List L) (v : L) : Finset ℕ :=
  (Finset.range col.length).filter (fun i => col.getD i d = v)

/-- Mean (X, Y) of the points whose row carries the value `v`:
one entry of `groupby(col)[xy].mean()`. -/
def meanOf (d : L) (pts : List Pt) (col : List L) (v : L) : Pt :=
  let f := fiberIdxs d col v
  let n : ℚ := (f.card : ℚ)
  ((∑ i ∈ f, (pts.getD i 0).1) / n, (∑ i ∈ f, (pts.getD i 0).2) / n)

/-- The centroid table of one run: non-noise labels in ascending order, each
with the mean of its points (`groupby(col)[xy].mean().drop(noise)`). -/
def centroids (noise : L) (pts : List Pt) (col : List L) : List (L × Pt) :=
  (nonNoiseKeys noise col).map (fun l => (l, meanOf noise pts col l))

/-- First-occurrence key order of a row: the iteration order of a Python
`Counter` built from the row. -/
def fok : List L → List L
  | [] => []
  | x :: xs => x :: (fok xs).filter (· ≠ x)

/-- `Counter(row)`: each distinct value with its multiplicity, keys in
first-encounter order. -/
def tally (row : List L) : List (L × ℕ) :=
  (fok row).map (fun k => (k, row.count k))

/-- `most_common(1)[0]`: the first entry of maximal count (Python's sort is
stable and descending on counts, so ties keep first-encounter order). -/
def maxByFirst : List (L × ℕ) → Option (L × ℕ)
  | [] => none
  | p :: t =>
    match maxByFirst t with
    | none => some p
    | some q => if p.2 < q.2 then some q else some p

/-- Row `i` of a matrix given as a list of columns. -/
def rowOf (d : L) (cols : List (List L)) (i : ℕ) : List L :=
  cols.map (fun c => c.getD i d)

/-- `ensemble` (adbscan.py line 381–432): per row, the winning label of
`Counter(row).most_common(1)[0]` and its count divided by the number of
columns. `d` is a don't-care default (the empty-row case is unreachable
whenever there is at least one column). -/
def ensemble (d : L) (cols : List (List L)) : List (L × ℚ) :=
  (List.range (cols.headD []).length).map (fun i =>
    match maxByFirst (tally (rowOf d cols i)) with
    | some (w, c) => (w, (c : ℚ) / (cols.length : ℚ))
    | none => (d, 0))

/-- The per-column remap built by `_remap_lbls_single` (line 362–378): each
non-noise label of the new column paired with the reference label whose
centroid its own centroid is nearest to. -/
def _remap_lbls_single (noise : L) (refC : List (L × Pt)) (pts : List Pt)
    (newLbls : List L) : List (L × L) :=
  (centroids noise pts newLbls).map (fun p =>
    (p.1, (refC.getD (nearestIdx (refC.map (·.2)) p.2) (noise, 0)).1))

/-- `solus[s].map(remap_ids)` followed by the final `fillna(noise)`: labels
absent from the remap (only the noise sentinel can be) become noise. -/
def mapCol (rm : List (L × L)) (noise : L) (col : List L) : List L :=
  col.map (fun v => ((rm.lookup v).getD noise))

/-- `_remap_n_expand` (line 355–359): build the remap for one column and
apply it. -/
def _remap_n_expand (noise : L) (refC : List (L × Pt)) (pts : List Pt)
    (col : List L) : List L :=
  mapCol (_remap_lbls_single noise refC pts col) noise col

/-- Errors the orchestrator can surface: `emptyDataError` models the
`ValueError` scikit-learn raises when fitted on an empty sample,
`indexError` the `IndexError` of an out-of-range `.iloc[...]` lookup, and
`concatError` the `ValueError` ("No objects to concatenate") that
`pandas.concat` raises on an empty list of objects. -/
inductive AErr : Type
  | emptyDataError : AErr
  | indexError : AErr
  | concatError : AErr
deriving DecidableEq, Repr

/-- `remap_lbls` (line 269–352), sequential path (`n_jobs = 1`).  `intCast`
is the label-representation cast `lbl_type(-1)` resolves through, and `zero`
the fill value of the `np.zeros` holder.  The returned Bool records whether
the warning-level "No clusters identified." signal was emitted. -/
def remap_lbls (intCast : ℤ → L) (zero : L) (cols : List (List L))
    (pts : List Pt) : Except AErr (Bool × List (List L)) :=
  match refSelect cols with
  | none => .error .indexError
  | some r =>
    match cols.getD r [] with
    | [] => .error .indexError
    | _ :: _ =>
      let refCol := cols.getD r []
      let noise := intCast (-1)
      let refC := centroids noise pts refCol
      if refC.isEmpty then .ok (true, cols)
      else
        let zeroM := cols.map (fun c => c.map (fun _ => zero))
        let sIds := (List.range cols.length).filter (fun s => s ≠ r)
        let filled := sIds.foldl
          (fun acc s => acc.set s (mapCol (_remap_lbls_single noise refC pts (cols.getD s [])) noise (cols.getD s []))) zeroM
        .ok (false, filled.set r refCol)

/-- `remap_lbls`, parallel path (`n_jobs = -1` or `> 1`): the non-reference
columns are handed one per task to the order-preserving `pool.map` over
`_remap_n_expand`, then stacked back with `pandas.concat(remapped, axis=1)`
(line 339) and written back by column key.  On a single-column matrix the
task list is empty and `pandas.concat` raises its "No objects to
concatenate" `ValueError` (`concatError`). -/
def remap_lbls_par (intCast : ℤ → L) (zero : L) (cols : List (List L))
    (pts : List Pt) : Except AErr (Bool × List (List L)) :=
  match refSelect cols with
  | none => .error .indexError
  | some r =>
    match cols.getD r [] with
    | [] => .error .indexError
    | _ :: _ =>
      let refCol := cols.getD r []
      let noise := intCast (-1)
      let refC := centroids noise pts refCol
      if refC.isEmpty then .ok (true, cols)
      else
        let zeroM := cols.map (fun c => c.map (fun _ => zero))
        let sIds := (List.range cols.length).filter (fun s => s ≠ r)
        let remapped := sIds.map (fun s => _remap_n_expand noise refC pts (cols.getD s []))
        if remapped.isEmpty then .error .concatError
        else
          let filled := (sIds.zip remapped).foldl (fun acc p => acc.set p.1 p.2) zeroM
          .ok (false, filled.set r refCol)

/-- Reference-run selection as the specification words it: the first column
with the maximal number of distinct *non-noise* labels. -/
def refSelectSpec (noise : L) (cols : List (List L)) : Option ℕ :=
  argmaxFirst (cols.map (fun c => (c.dedup.filter (· ≠ noise)).length))

end Labels

/-- `KNeighborsClassifier(n_neighbors=1).fit(refPts, refLbls).predict(qs)`:
each query point takes the label of its nearest reference point (ties to the
earlier index). -/
def knn1Predict (refPts : List Pt) (refLbls : List String) (qs : List Pt) :
    List String :=
  qs.map (fun q => refLbls.getD (nearestIdx refPts q) "")

/-- `_one_draw` (adbscan.py line 240–266).  `D ms pts` is the injected
density primitive (`DBSCAN(eps, ms, ...).fit(pts).labels_`); `perm` is the
shuffled index order `np.random.shuffle` produced for this draw.  The draw
thins the data to the first `int(n * pct_exact)` shuffled rows, scales
`min_samples` by the same fraction (floored, with floor 1), clusters the
thin sample, casts the integer labels to strings, and propagates them to
every point through a 1-nearest-neighbour classifier.  Fitting on an empty
thin sample raises (`emptyDataError`). -/
def _one_draw (D : ℕ → List Pt → List ℤ) (perm : List ℕ) (X : List Pt)
    (pct_exact : ℚ) (min_samples : ℕ) : Except AErr (List String) :=
  let n := X.length
  let rids := perm.take (⌊(n : ℚ) * pct_exact⌋).toNat
  let X_thin := rids.map (fun i => X.getD i 0)
  let ms := if (min_samples : ℚ) * pct_exact < 1 then 1
            else (⌊(min_samples : ℚ) * pct_exact⌋).toNat
  let lbls_thin := (D ms X_thin).map (fun z => toString z)
  if X_thin.isEmpty then .error .emptyDataError
  else .ok (knn1Predict X_thin lbls_thin X)

/-- The attributes `ADBSCAN.fit` leaves on the estimator. -/
structure FitRes : Type where
  labels_ : List String
  votes : List (String × ℚ)
  solus : List (List String)
  solus_relabelled : List (List String)
deriving DecidableEq, Repr

/-- `ADBSCAN.fit` (adbscan.py line 159–237): run `reps` sequential draws
(draw `i` consuming `perms[i]` from the shared random stream), align the
label matrix with `remap_lbls`, aggregate with `ensemble`, and overwrite
every row whose vote share is below `pct_thr` with the string noise
sentinel `str(-1)`. -/
def fitE (D : ℕ → List Pt → List ℤ) (perms : List (List ℕ)) (X : List Pt)
    (pct_exact : ℚ) (min_samples reps : ℕ) (pct_thr : ℚ) :
    Except AErr FitRes := do
  let solus ← (List.range reps).mapM
    (fun i => _one_draw D (perms.getD i []) X pct_exact min_samples)
  let (_, solus_relabelled) ← remap_lbls (fun z => toString z) "" solus X
  let votes := ensemble "" solus_relabelled
  let lbls := votes.map (fun p => if p.2 < pct_thr then toString (-1 : ℤ) else p.1)
  .ok ⟨lbls, votes, solus, solus_relabelled⟩

end Adbscan

namespace EsdaUtil

/-- `fdr` (util.py line 4–62): sort the p-values descending against the
thresholds `k * alpha / n` for `k = n, n-1, ..., 1`; return the threshold at
the first strict exceedance, and the Bonferroni bound `alpha / n` if there
is none. -/
def fdr (pvalues : List ℚ) (alpha : ℚ) : ℚ :=
  let n := pvalues.length
  let p_sort := (pvalues.insertionSort (· ≤ ·)).reverse
  let pairs := (List.range n).map
    (fun i => (p_sort.getD i 0, ((n - i : ℕ) : ℚ) * alpha / (n : ℚ)))
  match pairs.find? (fun q => decide (q.1 < q.2)) with
  | some q => q.2
  | none => alpha / (n : ℚ)

/-- The claim's reading of `fdr`: `k * alpha / n` for the largest 1-based
rank `k` whose `k`-th smallest p-value is strictly below `k * alpha / n`,
and `alpha / n` when no rank qualifies. -/
def fdrSpec (pvalues : List ℚ) (alpha : ℚ) : ℚ :=
  let n := pvalues.length
  let srt := pvalues.insertionSort (· ≤ ·)
  let cand := ((List.range n).map (fun j => j + 1)).filter
    (fun k => decide (srt.getD (k - 1) 0 < (k : ℚ) * alpha / (n : ℚ)))
  match cand.getLast? with
  | some k => (k : ℚ) * alpha / (n : ℚ)
  | none => alpha / (n : ℚ)

end EsdaUtil

namespace Adbscan

/-! ## Lemmas about `argmaxFirst` -/

theorem argmaxFirstAux_eq_none {l : List ℕ} : argmaxFirstAux l = none ↔ l = [] := by
  cases l with
  | nil => simp [argmaxFirstAux]
  | cons a t =>
    constructor
    · intro h
      exfalso
      cases h' : argmaxFirstAux t with
      | none =>
        simp only [argmaxFirstAux, h'] at h
        exact Option.noConfusion h
      | some p =>
        obtain ⟨j, v⟩ := p
        simp only [argmaxFirstAux, h'] at h
        split at h <;> exact Option.noConfusion h
    · intro h; exact absurd h (List.cons_ne_nil a t)

theorem argmaxFirstAux_spec {l : List ℕ} {i v : ℕ}
    (h : argmaxFirstAux l = some (i, v)) :
    i < l.length ∧ v = l.getD i 0 ∧ (∀ j < l.length, l.getD j 0 ≤ v) ∧
      (∀ j < i, l.getD j 0 < v) := by
  induction l generalizing i v with
  | nil => simp [argmaxFirstAux] at h
  | cons a t ih =>
    cases h' : argmaxFirstAux t with
    | none =>
      simp only [argmaxFirstAux, h'] at h
      rcases argmaxFirstAux_eq_none.mp h' with rfl
      simp only [Option.some.injEq, Prod.mk.injEq] at h
      obtain ⟨rfl, rfl⟩ := h
      refine ⟨by simp, by simp, ?_, by omega⟩
      intro j hj
      rcases Nat.lt_one_iff.mp (by simpa using hj) with rfl
      simp
    | some p =>
      obtain ⟨j, w⟩ := p
      simp only [argmaxFirstAux, h'] at h
      obtain ⟨hjlen, hval, hmax, hfirst⟩ := ih h'
      by_cases hc : a < w
      · rw [if_pos hc] at h
        simp only [Option.some.injEq, Prod.mk.injEq] at h
        obtain ⟨rfl, rfl⟩ := h
        refine ⟨by simpa using hjlen, by simpa using hval, ?_, ?_⟩
        · intro k hk
          cases k with
          | zero => simpa using le_of_lt hc
          | succ m =>
            rw [List.getD_cons_succ]
            exact hmax m (by simpa using hk)
        · intro k hk
          cases k with
          | zero => simpa using hc
          | succ m =>
            rw [List.getD_cons_succ]
            exact hfirst m (by omega)
      · rw [if_neg hc] at h
        simp only [Option.some.injEq, Prod.mk.injEq] at h
        obtain ⟨rfl, rfl⟩ := h
        refine ⟨by simp, by simp, ?_, by omega⟩
        intro k hk
        cases k with
        | zero => simp
        | succ m =>
          rw [List.getD_cons_succ]
          exact le_trans (hmax m (by simpa using hk)) (not_lt.mp hc)

theorem argmaxFirst_eq_none {l : List ℕ} : argmaxFirst l = none ↔ l = [] := by
  unfold argmaxFirst
  rw [Option.map_eq_none']
  exact argmaxFirstAux_eq_none

theorem argmaxFirst_spec {l : List ℕ} {i : ℕ} (h : argmaxFirst l = some i) :
    i < l.length ∧ (∀ j < l.length, l.getD j 0 ≤ l.getD i 0) ∧
      (∀ j < i, l.getD j 0 < l.getD i 0) := by
  unfold argmaxFirst at h
  rw [Option.map_eq_some'] at h
  obtain ⟨⟨i', v⟩, hav, hfst⟩ := h
  obtain rfl : i' = i := hfst
  obtain ⟨h1, h2, h3, h4⟩ := argmaxFirstAux_spec hav
  exact ⟨h1, fun j hj => h2 ▸ h3 j hj, fun j hj => h2 ▸ h4 j hj⟩

theorem argmaxFirst_eq_some {l : List ℕ} {i : ℕ} (hi : i < l.length)
    (hmax : ∀ j < l.length, l.getD j 0 ≤ l.getD i 0)
    (hfirst : ∀ j < i, l.getD j 0 < l.getD i 0) :
    argmaxFirst l = some i := by
  cases h : argmaxFirst l with
  | none =>
    rcases argmaxFirst_eq_none.mp h with rfl
    simp at hi
  | some i' =>
    obtain ⟨hi', hmax', hfirst'⟩ := argmaxFirst_spec h
    congr 1
    by_contra hne
    rcases lt_or_gt_of_ne (Ne.symm hne) with hlt | hgt
    · have h1 := hfirst' _ hlt
      have h2 := hmax _ hi'
      omega
    · have h1 := hfirst _ hgt
      have h2 := hmax' _ hi
      omega

/-! ## Lemmas about `nearestFrom` / `nearestIdx` -/

theorem nearestFrom_eq_none {q : Pt} {cs : List Pt} :
    nearestFrom q cs = none ↔ cs = [] := by
  cases cs with
  | nil => simp [nearestFrom]
  | cons c t =>
    constructor
    · intro h
      exfalso
      cases h' : nearestFrom q t with
      | none =>
        simp only [nearestFrom, h'] at h
        exact Option.noConfusion h
      | some p =>
        obtain ⟨i, d⟩ := p
        simp only [nearestFrom, h'] at h
        split at h <;> exact Option.noConfusion h
    · intro h; exact absurd h (List.cons_ne_nil c t)

theorem nearestFrom_spec {q : Pt} {cs : List Pt} {i : ℕ} {d : ℚ}
    (h : nearestFrom q cs = some (i, d)) :
    i < cs.length ∧ d = sqDist q (cs.getD i 0) ∧
      (∀ j < cs.length, d ≤ sqDist q (cs.getD j 0)) ∧
      (∀ j < i, d < sqDist q (cs.getD j 0)) := by
  induction cs generalizing i d with
  | nil => simp [nearestFrom] at h
  | cons c t ih =>
    cases h' : nearestFrom q t with
    | none =>
      simp only [nearestFrom, h'] at h
      rcases nearestFrom_eq_none.mp h' with rfl
      simp only [Option.some.injEq, Prod.mk.injEq] at h
      obtain ⟨rfl, rfl⟩ := h
      refine ⟨by simp, by simp, ?_, by omega⟩
      intro j hj
      rcases Nat.lt_one_iff.mp (by simpa using hj) with rfl
      simp
    | some p =>
      obtain ⟨i', d'⟩ := p
      simp only [nearestFrom, h'] at h
      obtain ⟨hilen, hval, hmin, hstrict⟩ := ih h'
      by_cases hc : sqDist q c ≤ d'
      · rw [if_pos hc] at h
        simp only [Option.some.injEq, Prod.mk.injEq] at h
        obtain ⟨rfl, rfl⟩ := h
        refine ⟨by simp, by simp, ?_, by omega⟩
        intro j hj
        cases j with
        | zero => simp
        | succ m =>
          rw [List.getD_cons_succ]
          exact le_trans hc (hmin m (by simpa using hj))
      · rw [if_neg hc] at h
        simp only [Option.some.injEq, Prod.mk.injEq] at h
        obtain ⟨rfl, rfl⟩ := h
        refine ⟨by simpa using hilen, by simpa using hval, ?_, ?_⟩
        · intro j hj
          cases j with
          | zero => simpa using le_of_lt (not_le.mp hc)
          | succ m =>
            rw [List.getD_cons_succ]
            exact hmin m (by simpa using hj)
        · intro j hj
          cases j with
          | zero => simpa using not_le.mp hc
          | succ m =>
            rw [List.getD_cons_succ]
            exact hstrict m (by omega)

theorem nearestIdx_lt {q : Pt} {cs : List Pt} (h : cs ≠ []) :
    nearestIdx cs q < cs.length := by
  unfold nearestIdx
  cases h' : nearestFrom q cs with
  | none => exact absurd (nearestFrom_eq_none.mp h') h
  | some p => exact (nearestFrom_spec (by rw [h'])).1

theorem nearestIdx_min {q : Pt} {cs : List Pt} (j : ℕ) (hj : j < cs.length) :
    sqDist q (cs.getD (nearestIdx cs q) 0) ≤ sqDist q (cs.getD j 0) := by
  unfold nearestIdx
  cases h' : nearestFrom q cs with
  | none =>
    rcases nearestFrom_eq_none.mp h' with rfl
    simp at hj
  | some p =>
    obtain ⟨hlen, hval, hmin, _⟩ := nearestFrom_spec (h' ▸ rfl : nearestFrom q cs = some (p.1, p.2))
    rw [← hval]
    exact hmin j hj

theorem nearestIdx_strict {q : Pt} {cs : List Pt} (j : ℕ)
    (hj : j < nearestIdx cs q) :
    sqDist q (cs.getD (nearestIdx cs q) 0) < sqDist q (cs.getD j 0) := by
  unfold nearestIdx at *
  cases h' : nearestFrom q cs with
  | none => rw [h'] at hj; simp at hj
  | some p =>
    obtain ⟨hlen, hval, _, hstrict⟩ := nearestFrom_spec (h' ▸ rfl : nearestFrom q cs = some (p.1, p.2))
    rw [h'] at hj
    rw [← hval]
    exact hstrict j hj

/-- Applying a map to a column can only lose distinct values. -/
theorem dedup_length_map_le {L M : Type} [DecidableEq L] [DecidableEq M]
    (f : L → M) (l : List L) : (l.map f).dedup.length ≤ l.dedup.length := by
  rw [← List.card_toFinset, ← List.card_toFinset]
  have h : (l.map f).toFinset = l.toFinset.image f := by ext x; simp
  rw [h]
  exact Finset.card_image_le

theorem nearestIdx_eq {q : Pt} {cs : List Pt} {i : ℕ} (hi : i < cs.length)
    (hmin : ∀ j < cs.length, sqDist q (cs.getD i 0) ≤ sqDist q (cs.getD j 0))
    (hstrict : ∀ j < i, sqDist q (cs.getD i 0) < sqDist q (cs.getD j 0)) :
    nearestIdx cs q = i := by
  have hne : cs ≠ [] := by intro h; subst h; simp at hi
  have h1 := @nearestIdx_lt q cs hne
  by_contra hne'
  rcases lt_or_gt_of_ne hne' with hlt | hgt
  · have h2 := hstrict _ hlt
    have h3 := @nearestIdx_min q cs i hi
    linarith
  · have h2 := @nearestIdx_strict q cs _ hgt
    have h3 := hmin _ h1
    linarith

/-! ## Lemmas about `fok`, `tally` and `maxByFirst` -/

section TallyLemmas

variable {L : Type} [LinearOrder L]

theorem fok_mem {l : List L} {v : L} : v ∈ fok l ↔ v ∈ l := by
  induction l with
  | nil => simp [fok]
  | cons x xs ih =>
    simp only [fok, List.mem_cons, List.mem_filter]
    constructor
    · rintro (rfl | ⟨hv, _⟩)
      · exact Or.inl rfl
      · exact Or.inr (ih.mp hv)
    · rintro (rfl | hv)
      · exact Or.inl rfl
      · by_cases hx : v = x
        · exact Or.inl hx
        · exact Or.inr ⟨ih.mpr hv, by simpa using hx⟩

theorem fok_nodup (l : List L) : (fok l).Nodup := by
  induction l with
  | nil => simp [fok]
  | cons x xs ih =>
    refine List.Nodup.cons ?_ (ih.filter _)
    intro hmem
    obtain ⟨-, hne⟩ := List.mem_filter.mp hmem
    simp at hne

theorem fok_pairwise_indexOf (l : List L) :
    (fok l).Pairwise (fun a b => l.indexOf a < l.indexOf b) := by
  induction l with
  | nil => simp [fok]
  | cons x xs ih =>
    refine List.Pairwise.cons ?_ ?_
    · intro b hb
      obtain ⟨-, hne⟩ := List.mem_filter.mp hb
      have hbx : b ≠ x := by simpa using hne
      rw [List.indexOf_cons_self, List.indexOf_cons_ne _ (Ne.symm hbx)]
      exact Nat.succ_pos _
    · have hfil : ((fok xs).filter (· ≠ x)).Pairwise
          (fun a b => xs.indexOf a < xs.indexOf b) :=
        ih.sublist (List.filter_sublist _)
      refine hfil.imp_of_mem ?_
      intro a b ha hb hab
      have hax : a ≠ x := by
        obtain ⟨-, hne⟩ := List.mem_filter.mp ha; simpa using hne
      have hbx : b ≠ x := by
        obtain ⟨-, hne⟩ := List.mem_filter.mp hb; simpa using hne
      rw [List.indexOf_cons_ne _ (Ne.symm hax), List.indexOf_cons_ne _ (Ne.symm hbx)]
      exact Nat.succ_lt_succ hab

theorem tally_mem {row : List L} {p : L × ℕ} :
    p ∈ tally row ↔ p.1 ∈ row ∧ p.2 = row.count p.1 := by
  unfold tally
  rw [List.mem_map]
  constructor
  · rintro ⟨k, hk, rfl⟩
    exact ⟨fok_mem.mp hk, by simp⟩
  · rintro ⟨h1, h2⟩
    exact ⟨p.1, fok_mem.mpr h1, by rw [← h2]⟩

theorem tally_pairwise_indexOf (row : List L) :
    (tally row).Pairwise (fun p q => row.indexOf p.1 < row.indexOf q.1) := by
  unfold tally
  rw [List.pairwise_map]
  exact fok_pairwise_indexOf row

omit [LinearOrder L] in
theorem maxByFirst_spec {t : List (L × ℕ)} {p : L × ℕ}
    (h : maxByFirst t = some p) :
    p ∈ t ∧ (∀ q ∈ t, q.2 ≤ p.2) ∧
      ∃ t₁ t₂, t = t₁ ++ p :: t₂ ∧ ∀ q ∈ t₁, q.2 < p.2 := by
  induction t generalizing p with
  | nil => simp [maxByFirst] at h
  | cons x rest ih =>
    cases h' : maxByFirst rest with
    | none =>
      simp only [maxByFirst, h'] at h
      obtain rfl : x = p := by simpa using h
      have hrest : rest = [] := by
        cases rest with
        | nil => rfl
        | cons y ys =>
          exfalso
          cases h'' : maxByFirst ys with
          | none =>
            simp only [maxByFirst, h''] at h'
            exact Option.noConfusion h'
          | some q =>
            simp only [maxByFirst, h''] at h'
            split at h' <;> exact Option.noConfusion h'
      subst hrest
      exact ⟨by simp, by simp, [], [], by simp, by simp⟩
    | some q =>
      simp only [maxByFirst, h'] at h
      obtain ⟨hqmem, hqmax, t₁, t₂, hsplit, hlt⟩ := ih h'
      by_cases hc : x.2 < q.2
      · rw [if_pos hc] at h
        obtain rfl : q = p := by simpa using h
        refine ⟨List.mem_cons_of_mem _ hqmem, ?_, x :: t₁, t₂, by simp [hsplit], ?_⟩
        · intro q' hq'
          rcases List.mem_cons.mp hq' with rfl | hq'
          · exact le_of_lt hc
          · exact hqmax q' hq'
        · intro q' hq'
          rcases List.mem_cons.mp hq' with rfl | hq'
          · exact hc
          · exact hlt q' hq'
      · rw [if_neg hc] at h
        obtain rfl : x = p := by simpa using h
        refine ⟨List.mem_cons_self _ _, ?_, [], rest, by simp, by simp⟩
        intro q' hq'
        rcases List.mem_cons.mp hq' with rfl | hq'
        · exact le_refl _
        · exact le_trans (hqmax q' hq') (not_lt.mp hc)

omit [LinearOrder L] in
theorem maxByFirst_eq_none {t : List (L × ℕ)} :
    maxByFirst t = none ↔ t = [] := by
  cases t with
  | nil => simp [maxByFirst]
  | cons x rest =>
    constructor
    · intro h
      exfalso
      cases h' : maxByFirst rest with
      | none =>
        simp only [maxByFirst, h'] at h
        exact Option.noConfusion h
      | some q =>
        simp only [maxByFirst, h'] at h
        split at h <;> exact Option.noConfusion h
    · intro h; exact absurd h (List.cons_ne_nil x rest)

/-- The three properties of the consensus winner of one row: it occurs in the
row, its count is maximal, and any value seen earlier in the row has a
strictly smaller count. -/
theorem winner_spec {row : List L} {w : L} {c : ℕ}
    (h : maxByFirst (tally row) = some (w, c)) :
    w ∈ row ∧ c = row.count w ∧ (∀ v ∈ row, row.count v ≤ c) ∧
      ∀ v ∈ row, row.indexOf v < row.indexOf w → row.count v < c := by
  obtain ⟨hmem, hmax, t₁, t₂, hsplit, hlt⟩ := maxByFirst_spec h
  obtain ⟨hw, hc⟩ := tally_mem.mp hmem
  refine ⟨hw, hc, ?_, ?_⟩
  · intro v hv
    exact hmax _ ((@tally_mem _ _ row (v, row.count v)).mpr ⟨hv, rfl⟩)
  · intro v hv hidx
    have hvt : (v, row.count v) ∈ tally row :=
      (@tally_mem _ _ row (v, row.count v)).mpr ⟨hv, rfl⟩
    rw [hsplit] at hvt
    rcases List.mem_append.mp hvt with h₁ | h₂
    · exact hlt _ h₁
    · rcases List.mem_cons.mp h₂ with heq | h₂
      · exfalso
        have : v = w := congrArg Prod.fst heq
        subst this
        exact lt_irrefl _ hidx
      · exfalso
        have hpw := tally_pairwise_indexOf row
        rw [hsplit] at hpw
        have := (List.pairwise_append.mp hpw).2.2
        have h3 := List.rel_of_pairwise_cons (List.pairwise_append.mp hpw).2.1 h₂
        exact absurd hidx (not_lt.mpr (le_of_lt h3))

end TallyLemmas

/-! ## A closed form for the matrix produced by `remap_lbls` -/

theorem getElem?_foldl_set {α : Type} (g : ℕ → α) (l : List ℕ) (z : List α)
    (j : ℕ) :
    (l.foldl (fun acc s => acc.set s (g s)) z)[j]? =
      if j ∈ l ∧ j < z.length then some (g j) else z[j]? := by
  induction l generalizing z with
  | nil => simp
  | cons x t ih =>
    rw [List.foldl_cons, ih]
    rw [List.length_set]
    by_cases ht : j ∈ t ∧ j < z.length
    · rw [if_pos ht, if_pos ⟨List.mem_cons_of_mem x ht.1, ht.2⟩]
    · rw [if_neg ht]
      by_cases hx : j = x
      · subst hx
        by_cases hlen : j < z.length
        · rw [if_pos ⟨List.mem_cons_self _ _, hlen⟩]
          rw [List.getElem?_set_self']
          simp [List.getElem?_eq_getElem hlen]
        · rw [if_neg (fun hc => hlen hc.2)]
          rw [List.getElem?_set_self']
          have h1 : z[j]? = none := by
            rw [List.getElem?_eq_none]
            omega
          rw [h1]
          rfl
      · rw [List.getElem?_set_ne (fun hc => hx hc.symm)]
        rw [if_neg]
        rintro ⟨hmem, hlen⟩
        rcases List.mem_cons.mp hmem with rfl | hmem
        · exact hx rfl
        · exact ht ⟨hmem, hlen⟩

theorem length_foldl_set {α : Type} (g : ℕ → α) (l : List ℕ) (z : List α) :
    (l.foldl (fun acc s => acc.set s (g s)) z).length = z.length := by
  induction l generalizing z with
  | nil => rfl
  | cons x t ih => rw [List.foldl_cons, ih, List.length_set]

theorem foldl_set_canon {α : Type} (g : ℕ → α) (c : α) (r n : ℕ)
    (z : List α) (hz : z.length = n) (hr : r < n) :
    (((List.range n).filter (fun s => s ≠ r)).foldl
        (fun acc s => acc.set s (g s)) z).set r c =
      (List.range n).map (fun j => if j = r then c else g j) := by
  apply List.ext_getElem?
  intro j
  by_cases hj : j < n
  · by_cases hjr : j = r
    · subst hjr
      have hlen : j < (((List.range n).filter (fun s => s ≠ j)).foldl
          (fun acc s => acc.set s (g s)) z).length := by
        rw [length_foldl_set, hz]; exact hj
      rw [List.getElem?_set_self']
      rw [List.getElem?_eq_getElem hlen, List.getElem?_map, List.getElem?_range hj]
      simp
    · rw [List.getElem?_set_ne (fun hc => hjr hc.symm)]
      rw [getElem?_foldl_set]
      have hmem : j ∈ (List.range n).filter (fun s => s ≠ r) := by
        rw [List.mem_filter]
        exact ⟨List.mem_range.mpr hj, by simpa using hjr⟩
      rw [if_pos ⟨hmem, hz ▸ hj⟩]
      rw [List.getElem?_map, List.getElem?_range hj]
      simp [hjr]
  · have h1 : ((((List.range n).filter (fun s => s ≠ r)).foldl
        (fun acc s => acc.set s (g s)) z).set r c).length = n := by
      rw [List.length_set, length_foldl_set, hz]
    have h2 : ((List.range n).map (fun j => if j = r then c else g j)).length = n := by
      simp
    rw [List.getElem?_eq_none (by rw [h1]; omega), List.getElem?_eq_none (by rw [h2]; omega)]

section RemapCanon

variable {L : Type} [LinearOrder L]

/-- The closed form of the aligned matrix: the reference column copied
through, every other column remapped and expanded. -/
def alignedM (intCast : ℤ → L) (cols : List (List L)) (pts : List Pt)
    (r : ℕ) : List (List L) :=
  let noise := intCast (-1)
  let refC := centroids noise pts (cols.getD r [])
  (List.range cols.length).map (fun j =>
    if j = r then cols.getD r []
    else _remap_n_expand noise refC pts (cols.getD j []))

theorem refSelect_lt {cols : List (List L)} {r : ℕ}
    (h : refSelect cols = some r) : r < cols.length := by
  have := (argmaxFirst_spec h).1
  simpa using this

theorem remap_lbls_eq_alignedM (intCast : ℤ → L) (zero : L)
    {cols : List (List L)} (pts : List Pt) {r : ℕ}
    (h1 : refSelect cols = some r) (h2 : cols.getD r [] ≠ [])
    (h3 : centroids (intCast (-1)) pts (cols.getD r []) ≠ []) :
    remap_lbls intCast zero cols pts = .ok (false, alignedM intCast cols pts r) := by
  have hr : r < cols.length := refSelect_lt h1
  have hE : (centroids (intCast (-1)) pts (cols.getD r [])).isEmpty = false := by
    cases hcc : centroids (intCast (-1)) pts (cols.getD r []) with
    | nil => exact absurd hcc h3
    | cons x xs => rfl
  cases hc : cols.getD r [] with
  | nil => exact absurd hc h2
  | cons a t =>
    rw [hc] at hE
    simp only [remap_lbls, h1, hc, hE, Bool.false_eq_true, if_false]
    rw [foldl_set_canon _ _ _ _ _ (by simp) hr]
    unfold alignedM
    rw [hc]
    rfl

theorem remap_lbls_warn (intCast : ℤ → L) (zero : L)
    {cols : List (List L)} (pts : List Pt) {r : ℕ}
    (h1 : refSelect cols = some r) (h2 : cols.getD r [] ≠ [])
    (h3 : centroids (intCast (-1)) pts (cols.getD r []) = []) :
    remap_lbls intCast zero cols pts = .ok (true, cols) := by
  have hE : (centroids (intCast (-1)) pts (cols.getD r [])).isEmpty = true := by
    rw [h3]; rfl
  cases hc : cols.getD r [] with
  | nil => exact absurd hc h2
  | cons a t =>
    rw [hc] at hE
    simp only [remap_lbls, h1, hc, hE, if_true]

end RemapCanon

theorem foldl_zip_map_set {α : Type} (f : ℕ → α) (l : List ℕ) (z : List α) :
    (l.zip (l.map f)).foldl (fun acc p => acc.set p.1 p.2) z =
      l.foldl (fun acc s => acc.set s (f s)) z := by
  induction l generalizing z with
  | nil => rfl
  | cons x t ih =>
    rw [List.map_cons, List.zip_cons_cons, List.foldl_cons, List.foldl_cons, ih]

theorem getD_map {α β : Type} (f : α → β) (l : List α) (j : ℕ)
    (hj : j < l.length) (d : α) (d' : β) :
    (l.map f).getD j d' = f (l.getD j d) := by
  rw [List.getD_eq_getElem?_getD, List.getElem?_map, List.getElem?_eq_getElem hj,
    List.getD_eq_getElem?_getD, List.getElem?_eq_getElem hj]
  rfl

section MoreLabelLemmas

variable {L : Type} [LinearOrder L]

theorem mem_nonNoiseKeys {noise : L} {col : List L} {v : L} :
    v ∈ nonNoiseKeys noise col ↔ v ∈ col ∧ v ≠ noise := by
  unfold nonNoiseKeys
  rw [List.mem_filter]
  constructor
  · rintro ⟨h1, h2⟩
    refine ⟨?_, by simpa using h2⟩
    have := (List.perm_insertionSort (· ≤ ·) col.dedup).mem_iff.mp h1
    exact List.mem_dedup.mp this
  · rintro ⟨h1, h2⟩
    refine ⟨?_, by simpa using h2⟩
    exact (List.perm_insertionSort (· ≤ ·) col.dedup).mem_iff.mpr
      (List.mem_dedup.mpr h1)

theorem nonNoiseKeys_nodup (noise : L) (col : List L) :
    (nonNoiseKeys noise col).Nodup :=
  ((col.nodup_dedup).perm (List.perm_insertionSort (· ≤ ·) col.dedup).symm).filter _

theorem nonNoiseKeys_eq_nil {noise : L} {col : List L}
    (h : ∀ v ∈ col, v = noise) : nonNoiseKeys noise col = [] := by
  unfold nonNoiseKeys
  rw [List.filter_eq_nil_iff]
  intro a ha
  have : a ∈ col :=
    List.mem_dedup.mp ((List.perm_insertionSort (· ≤ ·) col.dedup).mem_iff.mp ha)
  simpa using h a this

end MoreLabelLemmas

end Adbscan

namespace Adbscan

/-! ## Helper lemmas about lookups, draws and the orchestrator -/

instance {e a : Type} [DecidableEq e] [DecidableEq a] :
    DecidableEq (Except e a) := fun x y =>
  match x, y with
  | .ok v, .ok w =>
    if h : v = w then isTrue (by rw [h])
    else isFalse (fun hc => h (by injection hc))
  | .ok v, .error f => isFalse (fun hc => Except.noConfusion hc)
  | .error f, .ok w => isFalse (fun hc => Except.noConfusion hc)
  | .error f, .error g =>
    if h : f = g then isTrue (by rw [h])
    else isFalse (fun hc => h (by injection hc))

theorem mem_of_lookup {α β : Type} [DecidableEq α] {l : List (α × β)} {k : α}
    {b : β} (h : l.lookup k = some b) : (k, b) ∈ l := by
  rw [List.lookup_eq_some_iff] at h
  obtain ⟨l₁, l₂, rfl, -⟩ := h
  simp

theorem lookup_map_self {α β : Type} [DecidableEq α] (f : α → β)
    {keys : List α} (hnd : keys.Nodup) {k : α} (hk : k ∈ keys) :
    (keys.map (fun x => (x, f x))).lookup k = some (f k) := by
  induction keys with
  | nil => simp at hk
  | cons x t ih =>
    rw [List.map_cons, List.lookup_cons]
    by_cases hkx : k = x
    · subst hkx
      simp
    · have hbeq : (k == x) = false := by simpa using hkx
      rw [hbeq]
      have hk' : k ∈ t := by
        rcases List.mem_cons.mp hk with rfl | hmem
        · exact absurd rfl hkx
        · exact hmem
      exact ih hnd.of_cons hk' 

theorem lookup_map_none {α β : Type} [DecidableEq α] (f : α → β)
    {keys : List α} {k : α} (hk : k ∉ keys) :
    (keys.map (fun x => (x, f x))).lookup k = none := by
  rw [List.lookup_eq_none_iff]
  intro p hp
  obtain ⟨x, hx, rfl⟩ := List.mem_map.mp hp
  have : k ≠ x := fun hc => hk (hc ▸ hx)
  simpa using this

theorem mapM_ok {α β ε : Type} (f : α → Except ε β) :
    ∀ (l : List α) (ys : List β), l.mapM f = .ok ys →
      ys.length = l.length ∧ ∀ y ∈ ys, ∃ x ∈ l, f x = .ok y := by
  intro l
  induction l with
  | nil =>
    intro ys h
    rw [List.mapM_nil] at h
    obtain rfl : ([] : List β) = ys := by
      have h' : (Except.ok ([] : List β) : Except ε (List β)) = .ok ys := h
      injection h'
    simp
  | cons a t ih =>
    intro ys h
    rw [List.mapM_cons] at h
    cases hfa : f a with
    | error e =>
      rw [hfa] at h
      simp only [bind, Except.bind] at h
      exact Except.noConfusion h
    | ok b =>
      rw [hfa] at h
      simp only [bind, Except.bind] at h
      cases hmt : t.mapM f with
      | error e =>
        rw [hmt] at h
        exact Except.noConfusion h
      | ok bs =>
        rw [hmt] at h
        simp only [pure, Except.pure] at h
        obtain rfl : b :: bs = ys := by injection h
        obtain ⟨hlen, hmem⟩ := ih bs hmt
        refine ⟨by simp [hlen], ?_⟩
        intro y hy
        rcases List.mem_cons.mp hy with rfl | hy
        · exact ⟨a, by simp, hfa⟩
        · obtain ⟨x, hx, hfx⟩ := hmem y hy
          exact ⟨x, List.mem_cons_of_mem a hx, hfx⟩

theorem _one_draw_ok_length {D : ℕ → List Pt → List ℤ} {perm : List ℕ}
    {X : List Pt} {pct : ℚ} {ms : ℕ} {col : List String}
    (h : _one_draw D perm X pct ms = .ok col) : col.length = X.length := by
  unfold _one_draw at h
  dsimp only at h
  split at h
  · exact Except.noConfusion h
  · obtain rfl : knn1Predict _ _ X = col := by injection h
    simp [knn1Predict]

theorem _one_draw_ok_entries {D : ℕ → List Pt → List ℤ} {perm : List ℕ}
    {X : List Pt} {pct : ℚ} {ms : ℕ} {col : List String}
    (hD : ∀ m pts, (D m pts).length = pts.length)
    (h : _one_draw D perm X pct ms = .ok col) :
    ∀ e ∈ col, ∃ z : ℤ, e = toString z := by
  unfold _one_draw at h
  dsimp only at h
  split at h
  · exact Except.noConfusion h
  · next hne =>
    obtain rfl : knn1Predict _ _ X = col := by injection h
    intro e he
    unfold knn1Predict at he
    obtain ⟨q, -, rfl⟩ := List.mem_map.mp he
    set thin := (perm.take (⌊(X.length : ℚ) * pct⌋).toNat).map
      (fun i => X.getD i 0) with hthin
    have hthin_ne : thin ≠ [] := by
      intro hc
      rw [hc] at hne
      simp at hne
    have hidx : nearestIdx thin q < thin.length := nearestIdx_lt hthin_ne
    have hlbls : ((D (if (ms : ℚ) * pct < 1 then 1
        else (⌊(ms : ℚ) * pct⌋).toNat) thin).map
          (fun z => toString z)).length = thin.length := by
      rw [List.length_map, hD]
    refine ⟨(D (if (ms : ℚ) * pct < 1 then 1
      else (⌊(ms : ℚ) * pct⌋).toNat) thin).getD (nearestIdx thin q) 0, ?_⟩
    rw [List.getD_eq_getElem _ _ (by rw [hlbls]; exact hidx)]
    rw [List.getElem_map]
    rw [List.getD_eq_getElem _ _ (by rw [hD]; exact hidx)]

/-- Successful `fit` decomposes into a successful draw stage, a successful
alignment and the vote/threshold post-processing. -/
theorem fitE_ok_decomp {D : ℕ → List Pt → List ℤ} {perms : List (List ℕ)}
    {X : List Pt} {pct : ℚ} {ms reps : ℕ} {thr : ℚ} {res : FitRes}
    (h : fitE D perms X pct ms reps thr = .ok res) :
    ∃ solus b rel,
      (List.range reps).mapM
          (fun i => _one_draw D (perms.getD i []) X pct ms) = .ok solus ∧
        remap_lbls (fun z => toString z) "" solus X = .ok (b, rel) ∧
        res = ⟨(ensemble "" rel).map
            (fun p => if p.2 < thr then toString (-1 : ℤ) else p.1),
          ensemble "" rel, solus, rel⟩ := by
  unfold fitE at h
  cases hm : (List.range reps).mapM
      (fun i => _one_draw D (perms.getD i []) X pct ms) with
  | error e =>
    rw [hm] at h
    exact Except.noConfusion h
  | ok solus =>
    rw [hm] at h
    simp only [bind, Except.bind] at h
    cases hr : remap_lbls (fun z => toString z) "" solus X with
    | error e =>
      rw [hr] at h
      exact Except.noConfusion h
    | ok pr =>
      obtain ⟨b, rel⟩ := pr
      rw [hr] at h
      refine ⟨solus, b, rel, rfl, hr, ?_⟩
      obtain rfl : _ = res := by injection h
      rfl

theorem ensemble_length {L : Type} [LinearOrder L] (d : L)
    (cols : List (List L)) :
    (ensemble d cols).length = (cols.headD []).length := by
  simp [ensemble]

/-- Every pair produced by `ensemble` on a well-formed nonempty matrix has
its winner occurring in the corresponding row. -/
theorem ensemble_winner_mem {L : Type} [LinearOrder L] (d : L)
    {cols : List (List L)} {n : ℕ} (hne : cols ≠ [])
    (hWF : ∀ c ∈ cols, c.length = n) {v : L × ℚ} (hv : v ∈ ensemble d cols) :
    ∃ i < n, v.1 ∈ rowOf d cols i := by
  obtain ⟨c0, cols', rfl⟩ : ∃ c0 cols', cols = c0 :: cols' := by
    cases cols with
    | nil => exact absurd rfl hne
    | cons a t => exact ⟨a, t, rfl⟩
  have hc0 : c0.length = n := hWF c0 (by simp)
  unfold ensemble at hv
  obtain ⟨i, hi, hv⟩ := List.mem_map.mp hv
  rw [List.mem_range] at hi
  refine ⟨i, by simpa [hc0] using hi, ?_⟩
  have hrowne : tally (rowOf d (c0 :: cols') i) ≠ [] := by
    have : rowOf d (c0 :: cols') i = c0.getD i d :: rowOf d cols' i := rfl
    rw [this]
    unfold tally fok
    simp
  cases hm : maxByFirst (tally (rowOf d (c0 :: cols') i)) with
  | none => exact absurd (maxByFirst_eq_none.mp hm) hrowne
  | some p =>
    obtain ⟨w, c⟩ := p
    rw [hm] at hv
    obtain ⟨hw, -, -, -⟩ := winner_spec hm
    rw [← hv]
    exact hw

theorem rowOf_entry_mem {L : Type} [LinearOrder L] {d : L}
    {cols : List (List L)} {n i : ℕ} (hWF : ∀ c ∈ cols, c.length = n)
    (hi : i < n) {v : L} (hv : v ∈ rowOf d cols i) : ∃ c ∈ cols, v ∈ c := by
  obtain ⟨c, hc, rfl⟩ := List.mem_map.mp hv
  refine ⟨c, hc, ?_⟩
  rw [List.getD_eq_getElem c d (by rw [hWF c hc]; exact hi)]
  exact List.getElem_mem _

theorem alignedM_length {L : Type} [LinearOrder L] (intCast : ℤ → L)
    (cols : List (List L)) (pts : List Pt) (r : ℕ) :
    (alignedM intCast cols pts r).length = cols.length := by
  simp [alignedM]

theorem alignedM_col_length {L : Type} [LinearOrder L] {intCast : ℤ → L}
    {cols : List (List L)} {pts : List Pt} {r n : ℕ}
    (hWF : ∀ c ∈ cols, c.length = n) (hr : r < cols.length) :
    ∀ c ∈ alignedM intCast cols pts r, c.length = n := by
  intro c hc
  unfold alignedM at hc
  obtain ⟨j, hj, rfl⟩ := List.mem_map.mp hc
  rw [List.mem_range] at hj
  have hmem : ∀ m, m < cols.length → (cols.getD m []).length = n := by
    intro m hm
    apply hWF
    rw [List.getD_eq_getElem cols [] hm]
    exact List.getElem_mem _
  by_cases hjr : j = r
  · rw [if_pos hjr]
    exact hmem r hr
  · rw [if_neg hjr]
    unfold _remap_n_expand mapCol
    rw [List.length_map]
    exact hmem j hj

theorem mapCol_entry {L : Type} [LinearOrder L] (rm : List (L × L))
    (noise : L) (col : List L) {v : L} (hv : v ∈ mapCol rm noise col) :
    v = noise ∨ ∃ u, (u, v) ∈ rm := by
  unfold mapCol at hv
  obtain ⟨u, -, rfl⟩ := List.mem_map.mp hv
  cases hlk : rm.lookup u with
  | none => exact Or.inl rfl
  | some y => exact Or.inr ⟨u, mem_of_lookup hlk⟩

/-- Every value assigned by a per-column remap is a key of the reference
centroid table. -/
theorem _remap_lbls_single_val {L : Type} [LinearOrder L] {noise : L}
    {refC : List (L × Pt)} {pts : List Pt} {newLbls : List L}
    (hne : refC ≠ []) {u y : L}
    (h : (u, y) ∈ _remap_lbls_single noise refC pts newLbls) :
    y ∈ refC.map (·.1) := by
  unfold _remap_lbls_single at h
  obtain ⟨p, -, hp⟩ := List.mem_map.mp h
  have hy : (refC.getD (nearestIdx (refC.map (·.2)) p.2) (noise, 0)).1 = y := by
    have := congrArg Prod.snd hp
    simpa using this
  have hidx : nearestIdx (refC.map (·.2)) p.2 < refC.length := by
    have h1 : refC.map (·.2) ≠ [] := by simpa using hne
    have := @nearestIdx_lt p.2 (refC.map (·.2)) h1
    simpa using this
  rw [← hy, List.getD_eq_getElem _ _ hidx]
  exact List.mem_map.mpr ⟨_, List.getElem_mem hidx, rfl⟩

/-- The keys of a centroid table are the non-noise labels of its column. -/
theorem centroids_keys {L : Type} [LinearOrder L] (noise : L) (pts : List Pt)
    (col : List L) :
    (centroids noise pts col).map (·.1) = nonNoiseKeys noise col := by
  unfold centroids
  rw [List.map_map]
  have hcomp : ((·.1) ∘ fun l : L => (l, meanOf noise pts col l)) =
      fun l : L => l := rfl
  rw [hcomp]
  simp

/-- Every entry of the aligned matrix is the noise sentinel or a non-noise
label of the reference run. -/
theorem alignedM_entries {L : Type} [LinearOrder L] {intCast : ℤ → L}
    {cols : List (List L)} {pts : List Pt} {r : ℕ}
    (hC : centroids (intCast (-1)) pts (cols.getD r []) ≠ [])
    {c : List L} (hc : c ∈ alignedM intCast cols pts r) {v : L} (hv : v ∈ c) :
    v = intCast (-1) ∨ v ∈ nonNoiseKeys (intCast (-1)) (cols.getD r []) := by
  unfold alignedM at hc
  obtain ⟨j, hj, rfl⟩ := List.mem_map.mp hc
  by_cases hjr : j = r
  · rw [if_pos hjr] at hv
    by_cases hn : v = intCast (-1)
    · exact Or.inl hn
    · exact Or.inr (mem_nonNoiseKeys.mpr ⟨hv, hn⟩)
  · rw [if_neg hjr] at hv
    unfold _remap_n_expand at hv
    rcases mapCol_entry _ _ _ hv with hn | ⟨u, hu⟩
    · exact Or.inl hn
    · right
      have := _remap_lbls_single_val hC hu
      rwa [centroids_keys] at this

/-- A successful alignment is either the warned pass-through (all-noise
reference) or the closed-form aligned matrix. -/
theorem remap_ok_cases {L : Type} [LinearOrder L] {intCast : ℤ → L}
    {zero : L} {cols : List (List L)} {pts : List Pt} {b : Bool}
    {rel : List (List L)}
    (h : remap_lbls intCast zero cols pts = .ok (b, rel)) :
    ∃ r, refSelect cols = some r ∧ cols.getD r [] ≠ [] ∧
      ((centroids (intCast (-1)) pts (cols.getD r []) = [] ∧
          b = true ∧ rel = cols) ∨
        (centroids (intCast (-1)) pts (cols.getD r []) ≠ [] ∧
          b = false ∧ rel = alignedM intCast cols pts r)) := by
  cases hs : refSelect cols with
  | none =>
    simp only [remap_lbls, hs] at h
    exact Except.noConfusion h
  | some r =>
    refine ⟨r, rfl, ?_⟩
    cases hc : cols.getD r [] with
    | nil =>
      simp only [remap_lbls, hs, hc] at h
      exact Except.noConfusion h
    | cons a t =>
      rw [← hc]
      have hcne : cols.getD r [] ≠ [] := by rw [hc]; exact List.cons_ne_nil a t
      refine ⟨hcne, ?_⟩
      by_cases hcent : centroids (intCast (-1)) pts (cols.getD r []) = []
      · left
        refine ⟨hcent, ?_⟩
        have := remap_lbls_warn intCast zero pts hs hcne hcent
        rw [this] at h
        have h' : ((true, cols) : Bool × List (List L)) = (b, rel) := by
          injection h
        exact ⟨(congrArg Prod.fst h').symm, (congrArg Prod.snd h').symm⟩
      · right
        refine ⟨hcent, ?_⟩
        have := remap_lbls_eq_alignedM intCast zero pts hs hcne hcent
        rw [this] at h
        have h' : ((false, alignedM intCast cols pts r) : Bool × List (List L)) =
            (b, rel) := by
          injection h
        exact ⟨(congrArg Prod.fst h').symm, (congrArg Prod.snd h').symm⟩

theorem sqDist_nonneg (a b : Pt) : 0 ≤ sqDist a b := by
  unfold sqDist
  have h1 := sq_nonneg (a.1 - b.1)
  have h2 := sq_nonneg (a.2 - b.2)
  linarith

theorem sqDist_eq_zero_iff {a b : Pt} : sqDist a b = 0 ↔ a = b := by
  unfold sqDist
  constructor
  · intro h
    have h1 := sq_nonneg (a.1 - b.1)
    have h2 := sq_nonneg (a.2 - b.2)
    have hx : (a.1 - b.1) ^ 2 = 0 := by linarith
    have hy : (a.2 - b.2) ^ 2 = 0 := by linarith
    have hx' : a.1 = b.1 := by
      have h3 : a.1 - b.1 = 0 := (pow_eq_zero_iff (two_ne_zero)).mp hx
      linarith
    have hy' : a.2 = b.2 := by
      have h3 : a.2 - b.2 = 0 := (pow_eq_zero_iff (two_ne_zero)).mp hy
      linarith
    exact Prod.ext hx' hy'
  · intro h
    subst h
    ring

theorem range_map_getD {α : Type} (l : List α) (d : α) :
    (List.range l.length).map (fun i => l.getD i d) = l := by
  apply List.ext_getElem?
  intro i
  by_cases hi : i < l.length
  · rw [List.getElem?_map, List.getElem?_range hi]
    simp only [Option.map_some']
    rw [List.getD_eq_getElem l d hi, List.getElem?_eq_getElem hi]
  · rw [List.getElem?_eq_none (by simpa using not_lt.mp hi),
      List.getElem?_eq_none (not_lt.mp hi)]

theorem maxByFirst_singleton {L : Type} [LinearOrder L] (p : L × ℕ) :
    maxByFirst [p] = some p := rfl

/-- Aligning a one-column matrix returns it unchanged (the single column is
the reference run). -/
theorem remap_singleton {L : Type} [LinearOrder L] (intCast : ℤ → L)
    (zero : L) (c : List L) (pts : List Pt) (hcne : c ≠ []) :
    ∃ b, remap_lbls intCast zero [c] pts = .ok (b, [c]) := by
  have hsel : refSelect [c] = some 0 := rfl
  by_cases hcent : centroids (intCast (-1)) pts c = []
  · exact ⟨true, remap_lbls_warn intCast zero pts hsel hcne hcent⟩
  · refine ⟨false, ?_⟩
    rw [remap_lbls_eq_alignedM intCast zero pts hsel hcne hcent]
    have halg : alignedM intCast [c] pts 0 = [c] := by
      unfold alignedM
      rw [show List.range ([c] : List (List L)).length = [0] from rfl]
      simp
    rw [halg]

/-- Consensus on a one-column matrix: every winner is the column's own
entry. -/
theorem ensemble_singleton_winners {L : Type} [LinearOrder L] (d : L)
    (c : List L) : (ensemble d [c]).map Prod.fst = c := by
  unfold ensemble
  rw [List.map_map]
  have htal1 : ∀ x : L, tally [x] = [(x, 1)] := by
    intro x
    unfold tally
    rw [show fok [x] = [x] from rfl]
    simp [List.count_singleton]
  have hstep : (Prod.fst ∘ fun i =>
      match maxByFirst (tally (rowOf d [c] i)) with
      | some (w, cnt) => (w, (cnt : ℚ) / ((([c] : List (List L)).length : ℚ)))
      | none => (d, 0)) = fun i => c.getD i d := by
    funext i
    show Prod.fst (match maxByFirst (tally (rowOf d [c] i)) with
      | some (w, cnt) => (w, (cnt : ℚ) / ((([c] : List (List L)).length : ℚ)))
      | none => (d, 0)) = c.getD i d
    rw [show rowOf d [c] i = [c.getD i d] from rfl, htal1, maxByFirst_singleton]
  rw [hstep]
  have hh : (([c] : List (List L)).headD []) = c := rfl
  rw [hh, range_map_getD]

/-! ## Idempotence of the alignment step -/

/-- The mean of the points indexed by a finite index set. -/
def meanPt (pts : List Pt) (f : Finset ℕ) : Pt :=
  ((∑ i ∈ f, (pts.getD i 0).1) / (f.card : ℚ),
    (∑ i ∈ f, (pts.getD i 0).2) / (f.card : ℚ))

theorem meanOf_eq_meanPt {L : Type} [LinearOrder L] (d : L) (pts : List Pt)
    (col : List L) (v : L) :
    meanOf d pts col v = meanPt pts (fiberIdxs d col v) := rfl

/-- A cluster mean is an affine average: scaled by the cluster size, the
difference of its squared distances to two fixed centres is the sum of the
member points' differences.  This is the heart of the idempotence of the
nearest-centroid crosswalk. -/
theorem meanPt_sqDist_diff (pts : List Pt) (f : Finset ℕ) (hf : f.Nonempty)
    (cj cq : Pt) :
    (f.card : ℚ) * (sqDist (meanPt pts f) cj - sqDist (meanPt pts f) cq) =
      ∑ i ∈ f, (sqDist (pts.getD i 0) cj - sqDist (pts.getD i 0) cq) := by
  have hN : ((f.card : ℚ)) ≠ 0 := by
    have h1 : 0 < f.card := Finset.card_pos.mpr hf
    exact_mod_cast h1.ne'
  have hpt : ∀ x : Pt, sqDist x cj - sqDist x cq =
      (cj.1 ^ 2 + cj.2 ^ 2 - cq.1 ^ 2 - cq.2 ^ 2)
        - 2 * (cj.1 - cq.1) * x.1 - 2 * (cj.2 - cq.2) * x.2 := by
    intro x
    unfold sqDist
    ring
  have hR : ∑ i ∈ f, (sqDist (pts.getD i 0) cj - sqDist (pts.getD i 0) cq) =
      (f.card : ℚ) * (cj.1 ^ 2 + cj.2 ^ 2 - cq.1 ^ 2 - cq.2 ^ 2)
        - 2 * (cj.1 - cq.1) * (∑ i ∈ f, (pts.getD i 0).1)
        - 2 * (cj.2 - cq.2) * (∑ i ∈ f, (pts.getD i 0).2) := by
    rw [Finset.sum_congr rfl (fun i _ => hpt (pts.getD i 0))]
    rw [Finset.sum_sub_distrib, Finset.sum_sub_distrib, Finset.sum_const,
      ← Finset.mul_sum, ← Finset.mul_sum, nsmul_eq_mul]
  rw [hR, hpt (meanPt pts f)]
  unfold meanPt
  field_simp
  ring

/-- Every value of a column has a nonempty fiber. -/
theorem fiberIdxs_nonempty {L : Type} [LinearOrder L] (d : L) {col : List L}
    {v : L} (hv : v ∈ col) : (fiberIdxs d col v).Nonempty := by
  obtain ⟨i, hi, hvi⟩ := List.mem_iff_getElem.mp hv
  refine ⟨i, Finset.mem_filter.mpr ⟨Finset.mem_range.mpr hi, ?_⟩⟩
  rw [List.getD_eq_getElem _ _ hi, hvi]

/-- The crosswalk of `_remap_lbls_single` in key-map form. -/
theorem _remap_lbls_single_eq_map {L : Type} [LinearOrder L] (noise : L)
    (refC : List (L × Pt)) (pts : List Pt) (col : List L) :
    _remap_lbls_single noise refC pts col =
      (nonNoiseKeys noise col).map (fun l =>
        (l, (refC.getD (nearestIdx (refC.map (·.2)) (meanOf noise pts col l))
          (noise, 0)).1)) := by
  unfold _remap_lbls_single centroids
  rw [List.map_map]
  rfl

/-- Remapping a column can only lose distinct labels. -/
theorem uniqueCount_mapCol_le {L : Type} [LinearOrder L] (rm : List (L × L))
    (noise : L) (col : List L) :
    uniqueCount (mapCol rm noise col) ≤ uniqueCount col := by
  unfold uniqueCount mapCol
  exact dedup_length_map_le _ _

/-- Closed form of one column of the aligned matrix. -/
theorem alignedM_getD {L : Type} [LinearOrder L] (intCast : ℤ → L)
    (cols : List (List L)) (pts : List Pt) (r : ℕ) {j : ℕ}
    (hj : j < cols.length) :
    (alignedM intCast cols pts r).getD j [] =
      if j = r then cols.getD r []
      else _remap_n_expand (intCast (-1))
        (centroids (intCast (-1)) pts (cols.getD r [])) pts (cols.getD j []) := by
  simp only [alignedM]
  rw [getD_map _ (List.range cols.length) j (by simpa using hj) 0 ([] : List L)]
  have hval : (List.range cols.length).getD j 0 = j := by
    rw [List.getD_eq_getElem _ _ (by simpa using hj)]
    exact List.getElem_range _ _
  rw [hval]

/-- If every source label mapped onto `a` has its cluster mean nearest to
the reference centroid of index `q`, then so has the merged fiber of `a` in
the mapped column: the merged mean is a convex combination of the source
means, and being on the `q`-side of every bisector is preserved by convex
combinations. -/
theorem nearestIdx_meanOf_map {L : Type} [LinearOrder L] (noise : L)
    (pts refPts : List Pt) (col : List L) (g : L → L) (a : L) (q : ℕ)
    (hq : q < refPts.length) (ha : a ∈ col.map g)
    (hfib : ∀ v ∈ col, g v = a →
      nearestIdx refPts (meanOf noise pts col v) = q) :
    nearestIdx refPts (meanOf noise pts (col.map g) a) = q := by
  classical
  set t := col.toFinset.filter (fun v => g v = a) with ht
  have fibEq : fiberIdxs noise (col.map g) a =
      (Finset.range col.length).filter (fun i => g (col.getD i noise) = a) := by
    unfold fiberIdxs
    rw [List.length_map]
    exact Finset.filter_congr (fun i hi => by
      rw [getD_map g col i (Finset.mem_range.mp hi) noise noise])
  have hsum : ∀ F : ℕ → ℚ,
      ∑ i ∈ fiberIdxs noise (col.map g) a, F i =
        ∑ v ∈ t, ∑ i ∈ fiberIdxs noise col v, F i := by
    intro F
    rw [fibEq]
    unfold fiberIdxs
    rw [Finset.sum_fiberwise_eq_sum_filter (Finset.range col.length) t
      (fun i => col.getD i noise) F]
    congr 1
    refine Finset.filter_congr (fun i hi => ?_)
    rw [Finset.mem_range] at hi
    have hmem : col.getD i noise ∈ col := by
      rw [List.getD_eq_getElem _ _ hi]
      exact List.getElem_mem _
    rw [ht]
    simp only [Finset.mem_filter, List.mem_toFinset]
    constructor
    · intro h
      exact ⟨hmem, h⟩
    · intro h
      exact h.2
  have htne : t.Nonempty := by
    obtain ⟨v, hv, hgv⟩ := List.mem_map.mp ha
    refine ⟨v, ?_⟩
    rw [ht]
    exact Finset.mem_filter.mpr ⟨List.mem_toFinset.mpr hv, hgv⟩
  have hNpos : (0 : ℚ) < ((fiberIdxs noise (col.map g) a).card : ℚ) := by
    exact_mod_cast Finset.card_pos.mpr (fiberIdxs_nonempty noise ha)
  have hvcol : ∀ v ∈ t, v ∈ col := by
    intro v hv
    rw [ht] at hv
    exact List.mem_toFinset.mp (Finset.mem_filter.mp hv).1
  have hvpos : ∀ v ∈ t, (0 : ℚ) < ((fiberIdxs noise col v).card : ℚ) := by
    intro v hv
    exact_mod_cast Finset.card_pos.mpr (fiberIdxs_nonempty noise (hvcol v hv))
  have hvq : ∀ v ∈ t, nearestIdx refPts (meanOf noise pts col v) = q := by
    intro v hv
    have h2 : g v = a := by
      rw [ht] at hv
      exact (Finset.mem_filter.mp hv).2
    exact hfib v (hvcol v hv) h2
  have hNg : ∀ j : ℕ,
      ((fiberIdxs noise (col.map g) a).card : ℚ) *
          (sqDist (meanOf noise pts (col.map g) a) (refPts.getD j 0) -
            sqDist (meanOf noise pts (col.map g) a) (refPts.getD q 0)) =
        ∑ v ∈ t, ((fiberIdxs noise col v).card : ℚ) *
          (sqDist (meanOf noise pts col v) (refPts.getD j 0) -
            sqDist (meanOf noise pts col v) (refPts.getD q 0)) := by
    intro j
    rw [meanOf_eq_meanPt, meanPt_sqDist_diff pts _ (fiberIdxs_nonempty noise ha)]
    refine (hsum _).trans ?_
    refine Finset.sum_congr rfl (fun v hv => ?_)
    rw [meanOf_eq_meanPt]
    exact (meanPt_sqDist_diff pts _ (fiberIdxs_nonempty noise (hvcol v hv)) _ _).symm
  refine nearestIdx_eq hq ?_ ?_
  · intro j hj
    have hsumnn : 0 ≤ ∑ v ∈ t, ((fiberIdxs noise col v).card : ℚ) *
        (sqDist (meanOf noise pts col v) (refPts.getD j 0) -
          sqDist (meanOf noise pts col v) (refPts.getD q 0)) := by
      refine Finset.sum_nonneg (fun v hv => ?_)
      refine mul_nonneg (le_of_lt (hvpos v hv)) (sub_nonneg.mpr ?_)
      have h2 := @nearestIdx_min (meanOf noise pts col v) refPts j hj
      rw [hvq v hv] at h2
      exact h2
    have h3 : 0 ≤ sqDist (meanOf noise pts (col.map g) a) (refPts.getD j 0) -
        sqDist (meanOf noise pts (col.map g) a) (refPts.getD q 0) := by
      by_contra hcon
      push_neg at hcon
      have h4 := mul_neg_of_pos_of_neg hNpos hcon
      rw [hNg j] at h4
      linarith
    linarith
  · intro j hj
    have hsumpos : 0 < ∑ v ∈ t, ((fiberIdxs noise col v).card : ℚ) *
        (sqDist (meanOf noise pts col v) (refPts.getD j 0) -
          sqDist (meanOf noise pts col v) (refPts.getD q 0)) := by
      refine Finset.sum_pos (fun v hv => ?_) htne
      refine mul_pos (hvpos v hv) (sub_pos.mpr ?_)
      have h2 := @nearestIdx_strict (meanOf noise pts col v) refPts j
        ((hvq v hv).symm ▸ hj)
      rw [hvq v hv] at h2
      exact h2
    have h3 : 0 < sqDist (meanOf noise pts (col.map g) a) (refPts.getD j 0) -
        sqDist (meanOf noise pts (col.map g) a) (refPts.getD q 0) := by
      by_contra hcon
      push_neg at hcon
      have h4 := mul_le_mul_of_nonneg_left hcon (le_of_lt hNpos)
      rw [mul_zero] at h4
      rw [hNg j] at h4
      linarith
    linarith

theorem _remap_n_expand_eq_map {L : Type} [LinearOrder L] (noise : L)
    (refC : List (L × Pt)) (pts : List Pt) (col : List L) :
    _remap_n_expand noise refC pts col = col.map (fun v =>
      (((_remap_lbls_single noise refC pts col).lookup v).getD noise)) := rfl

/-- The crosswalk value of a non-noise label of the column. -/
theorem crosswalk_val_key {L : Type} [LinearOrder L] {noise : L}
    {refC : List (L × Pt)} {pts : List Pt} {col : List L} {v : L}
    (hv : v ∈ nonNoiseKeys noise col) :
    ((_remap_lbls_single noise refC pts col).lookup v).getD noise =
      (refC.getD (nearestIdx (refC.map (·.2)) (meanOf noise pts col v))
        (noise, 0)).1 := by
  rw [_remap_lbls_single_eq_map,
    lookup_map_self _ (nonNoiseKeys_nodup noise col) hv, Option.getD_some]

/-- Labels outside the crosswalk (only the noise sentinel can be) fall back
to noise. -/
theorem crosswalk_val_nonkey {L : Type} [LinearOrder L] {noise : L}
    {refC : List (L × Pt)} {pts : List Pt} {col : List L} {v : L}
    (hv : v ∉ nonNoiseKeys noise col) :
    ((_remap_lbls_single noise refC pts col).lookup v).getD noise = noise := by
  rw [_remap_lbls_single_eq_map, lookup_map_none _ hv, Option.getD_none]

/-- Remapping-and-expanding a column against a fixed reference centroid
table is idempotent. -/
theorem _remap_n_expand_idem {L : Type} [LinearOrder L] (noise : L)
    (refC : List (L × Pt)) (pts : List Pt) (col : List L)
    (hrefC : refC ≠ []) (hnd : (refC.map (·.1)).Nodup) :
    _remap_n_expand noise refC pts (_remap_n_expand noise refC pts col) =
      _remap_n_expand noise refC pts col := by
  classical
  have hrefPts : (refC.map (·.2)) ≠ [] := by simpa using hrefC
  have hkey_inj : ∀ i j : ℕ, i < refC.length → j < refC.length →
      (refC.getD i (noise, 0)).1 = (refC.getD j (noise, 0)).1 → i = j := by
    intro i j hi hj hij
    have hi' : i < (refC.map (·.1)).length := by simpa using hi
    have hj' : j < (refC.map (·.1)).length := by simpa using hj
    have h1 : (refC.map (·.1)).getD i noise = (refC.map (·.1)).getD j noise := by
      rw [getD_map _ refC i hi (noise, 0) noise,
        getD_map _ refC j hj (noise, 0) noise]
      exact hij
    rw [List.getD_eq_getElem _ _ hi', List.getD_eq_getElem _ _ hj'] at h1
    exact (List.Nodup.getElem_inj_iff hnd).mp h1
  rw [_remap_n_expand_eq_map noise refC pts (_remap_n_expand noise refC pts col)]
  refine (List.map_congr_left ?_).trans (List.map_id _)
  intro e he
  by_cases hen : e = noise
  · have hnk : e ∉ nonNoiseKeys noise (_remap_n_expand noise refC pts col) := by
      intro hc
      exact (mem_nonNoiseKeys.mp hc).2 hen
    exact (crosswalk_val_nonkey hnk).trans hen.symm
  · have hekey : e ∈ nonNoiseKeys noise (_remap_n_expand noise refC pts col) :=
      mem_nonNoiseKeys.mpr ⟨he, hen⟩
    have he' : e ∈ col.map (fun v =>
        (((_remap_lbls_single noise refC pts col).lookup v).getD noise)) := by
      rw [← _remap_n_expand_eq_map noise refC pts col]
      exact he
    obtain ⟨v₀, hv₀, hgv₀⟩ := List.mem_map.mp he'
    have hgv₀' : (((_remap_lbls_single noise refC pts col).lookup v₀).getD noise)
        = e := hgv₀
    have hv₀k : v₀ ∈ nonNoiseKeys noise col := by
      by_contra hc
      exact hen (hgv₀'.symm.trans (crosswalk_val_nonkey hc))
    have he_eq : (refC.getD
        (nearestIdx (refC.map (·.2)) (meanOf noise pts col v₀)) (noise, 0)).1
          = e := by
      rw [← hgv₀']
      exact (crosswalk_val_key hv₀k).symm
    have hq₀ : nearestIdx (refC.map (·.2)) (meanOf noise pts col v₀) <
        (refC.map (·.2)).length :=
      nearestIdx_lt hrefPts
    have hq₀' : nearestIdx (refC.map (·.2)) (meanOf noise pts col v₀) <
        refC.length := by
      simpa using hq₀
    have hfib : ∀ v ∈ col,
        (((_remap_lbls_single noise refC pts col).lookup v).getD noise) = e →
          nearestIdx (refC.map (·.2)) (meanOf noise pts col v) =
            nearestIdx (refC.map (·.2)) (meanOf noise pts col v₀) := by
      intro v hv hgv
      have hvk : v ∈ nonNoiseKeys noise col := by
        by_contra hc
        exact hen (hgv.symm.trans (crosswalk_val_nonkey hc))
      have h2 : (refC.getD
          (nearestIdx (refC.map (·.2)) (meanOf noise pts col v)) (noise, 0)).1
            = e := by
        rw [← hgv]
        exact (crosswalk_val_key hvk).symm
      have hqv : nearestIdx (refC.map (·.2)) (meanOf noise pts col v) <
          refC.length := by
        simpa using (@nearestIdx_lt (meanOf noise pts col v) (refC.map (·.2))
          hrefPts)
      exact hkey_inj _ _ hqv hq₀' (h2.trans he_eq.symm)
    have hmain := nearestIdx_meanOf_map noise pts (refC.map (·.2)) col
      (fun v => (((_remap_lbls_single noise refC pts col).lookup v).getD noise))
      e (nearestIdx (refC.map (·.2)) (meanOf noise pts col v₀)) hq₀ he' hfib
    show ((_remap_lbls_single noise refC pts
      (_remap_n_expand noise refC pts col)).lookup e).getD noise = id e
    rw [crosswalk_val_key hekey]
    rw [_remap_n_expand_eq_map noise refC pts col, hmain]
    exact he_eq

/-- Aligning cannot create distinct labels, and copies the reference column
through, so the aligned matrix selects the same reference run. -/
theorem refSelect_alignedM {L : Type} [LinearOrder L] {intCast : ℤ → L}
    {cols : List (List L)} {pts : List Pt} {r : ℕ}
    (hs : refSelect cols = some r) :
    refSelect (alignedM intCast cols pts r) = some r := by
  have hr : r < cols.length := refSelect_lt hs
  obtain ⟨hrl, hmax, hfirst⟩ := argmaxFirst_spec hs
  have hlenm : (cols.map uniqueCount).length = cols.length := by simp
  have hu : ∀ j, j < cols.length →
      (cols.map uniqueCount).getD j 0 = uniqueCount (cols.getD j []) := by
    intro j hj
    exact getD_map uniqueCount cols j hj [] 0
  have hA : ∀ j, j < cols.length →
      ((alignedM intCast cols pts r).map uniqueCount).getD j 0 =
        uniqueCount ((alignedM intCast cols pts r).getD j []) := by
    intro j hj
    exact getD_map uniqueCount (alignedM intCast cols pts r) j
      (by rw [alignedM_length]; exact hj) [] 0
  have hAr : (alignedM intCast cols pts r).getD r [] = cols.getD r [] := by
    rw [alignedM_getD intCast cols pts r hr, if_pos rfl]
  have hle : ∀ j, j < cols.length →
      uniqueCount ((alignedM intCast cols pts r).getD j []) ≤
        uniqueCount (cols.getD j []) := by
    intro j hj
    rw [alignedM_getD intCast cols pts r hj]
    by_cases hjr : j = r
    · rw [if_pos hjr, hjr]
    · rw [if_neg hjr]
      unfold _remap_n_expand
      exact uniqueCount_mapCol_le _ _ _
  unfold refSelect
  apply argmaxFirst_eq_some
  · rw [List.length_map, alignedM_length]
    exact hr
  · intro j hj
    rw [List.length_map, alignedM_length] at hj
    rw [hA j hj, hA r hr, hAr]
    refine le_trans (hle j hj) ?_
    have h2 := hmax j (by rw [hlenm]; exact hj)
    rw [hu j hj, hu r hr] at h2
    exact h2
  · intro j hj
    have hjc : j < cols.length := lt_trans hj hr
    rw [hA j hjc, hA r hr, hAr]
    refine lt_of_le_of_lt (hle j hjc) ?_
    have h2 := hfirst j hj
    rw [hu j hjc, hu r hr] at h2
    exact h2

/-- Aligning an already-aligned matrix (same reference run) is a no-op. -/
theorem alignedM_alignedM {L : Type} [LinearOrder L] (intCast : ℤ → L)
    (cols : List (List L)) (pts : List Pt) (r : ℕ) (hr : r < cols.length)
    (hcent : centroids (intCast (-1)) pts (cols.getD r []) ≠ []) :
    alignedM intCast (alignedM intCast cols pts r) pts r =
      alignedM intCast cols pts r := by
  have hlenA : (alignedM intCast cols pts r).length = cols.length :=
    alignedM_length intCast cols pts r
  have hAr : (alignedM intCast cols pts r).getD r [] = cols.getD r [] := by
    rw [alignedM_getD intCast cols pts r hr, if_pos rfl]
  have hnd : ((centroids (intCast (-1)) pts (cols.getD r [])).map (·.1)).Nodup := by
    rw [centroids_keys]
    exact nonNoiseKeys_nodup _ _
  apply List.ext_getElem (by rw [alignedM_length, hlenA])
  intro i h1 h2
  rw [← List.getD_eq_getElem _ ([] : List L) h1,
    ← List.getD_eq_getElem _ ([] : List L) h2]
  have hi : i < cols.length := by rw [← hlenA]; exact h2
  rw [alignedM_getD intCast (alignedM intCast cols pts r) pts r
    (by rw [hlenA]; exact hi), hAr]
  rw [alignedM_getD intCast cols pts r hi]
  by_cases hir : i = r
  · rw [if_pos hir, if_pos hir]
  · rw [if_neg hir, if_neg hir]
    exact _remap_n_expand_idem _ _ _ _ hcent hnd

end Adbscan

namespace Claims

open Adbscan

/-! ## Claim C1 -/

/-- C1, counterexample: the claim says the Reference Run is the first column
with the strictly maximum count of distinct *non-noise* labels.  On the
matrix with columns `[0, 1, 1]` and `[-1, 0, 1]`, both columns have two
distinct non-noise labels, so the claim's rule (formalised by
`refSelectSpec`) picks the first column; the code counts distinct labels
*including* the noise sentinel (`x.unique().shape[0]`) and picks the second
column. -/
theorem c1_counterexample :
    refSelect [[(0 : ℤ), 1, 1], [-1, 0, 1]] = some 1 ∧
      refSelectSpec (-1 : ℤ) [[(0 : ℤ), 1, 1], [-1, 0, 1]] = some 0 ∧
      refSelect [[(0 : ℤ), 1, 1], [-1, 0, 1]] ≠
        refSelectSpec (-1 : ℤ) [[(0 : ℤ), 1, 1], [-1, 0, 1]] := by
  refine ⟨by decide, by decide, by decide⟩

/-- C1 (amended): for every Label Matrix with at least one column, the
alignment step selects as Reference Run the column with the strictly
maximum count of distinct labels *including the noise sentinel* among all
columns, taking the first such column when several tie for the maximum. -/
theorem c1_amended_refSelect {L : Type} [LinearOrder L]
    {cols : List (List L)} (h : cols ≠ []) :
    ∃ r, refSelect cols = some r ∧ r < cols.length ∧
      (∀ j < cols.length,
        uniqueCount (cols.getD j []) ≤ uniqueCount (cols.getD r [])) ∧
      ∀ j < r, uniqueCount (cols.getD j []) < uniqueCount (cols.getD r []) := by
  cases hs : refSelect cols with
  | none =>
    exfalso
    unfold refSelect at hs
    rcases argmaxFirst_eq_none.mp hs with hmap
    exact h (List.map_eq_nil_iff.mp hmap)
  | some r =>
    obtain ⟨hlen, hmax, hfirst⟩ := argmaxFirst_spec hs
    rw [List.length_map] at hlen
    refine ⟨r, rfl, hlen, ?_, ?_⟩
    · intro j hj
      have := hmax j (by simpa using hj)
      rwa [getD_map uniqueCount cols j hj [], getD_map uniqueCount cols r hlen []] at this
    · intro j hj
      have := hfirst j hj
      rwa [getD_map uniqueCount cols j (lt_trans hj hlen) [],
        getD_map uniqueCount cols r hlen []] at this

/-- C1, witness for the amended theorem at a concrete matrix. -/
theorem c1_amended_refSelect_witness :
    ([[(0 : ℤ), 1, 1], [-1, 0, 1]] : List (List ℤ)) ≠ [] ∧
      ∃ r, refSelect [[(0 : ℤ), 1, 1], [-1, 0, 1]] = some r ∧
        r < 2 ∧
        (∀ j < 2, uniqueCount (([[(0 : ℤ), 1, 1], [-1, 0, 1]] : List (List ℤ)).getD j []) ≤
          uniqueCount (([[(0 : ℤ), 1, 1], [-1, 0, 1]] : List (List ℤ)).getD r [])) ∧
        ∀ j < r, uniqueCount (([[(0 : ℤ), 1, 1], [-1, 0, 1]] : List (List ℤ)).getD j []) <
          uniqueCount (([[(0 : ℤ), 1, 1], [-1, 0, 1]] : List (List ℤ)).getD r []) :=
  ⟨by decide, c1_amended_refSelect (by decide)⟩

/-! ## Claim C3 -/

/-- C3, counterexample: on a single-column Label Matrix whose reference run
has a non-noise label, the sequential path succeeds (the remap loop body
never runs and the reference column is copied through), while the parallel
path reaches `pandas.concat(remapped, axis=1)` with an empty task list and
raises its `ValueError` — so the two paths are not identical on every
input. -/
theorem c3_counterexample :
    remap_lbls (fun z : ℤ => z) 0 [[(0 : ℤ), 0]] [(0, 0), (1, 0)] =
        .ok (false, [[(0 : ℤ), 0]]) ∧
      remap_lbls_par (fun z : ℤ => z) 0 [[(0 : ℤ), 0]] [(0, 0), (1, 0)] =
        .error .concatError ∧
      remap_lbls_par (fun z : ℤ => z) 0 [[(0 : ℤ), 0]] [(0, 0), (1, 0)] ≠
        remap_lbls (fun z : ℤ => z) 0 [[(0 : ℤ), 0]] [(0, 0), (1, 0)] := by
  refine ⟨by with_unfolding_all decide, by with_unfolding_all decide,
    by with_unfolding_all decide⟩

/-- C3 (amended): for every Label Matrix with at least two runs, the
parallel path of the alignment step (one column per task through the
order-preserving map) returns exactly what the sequential path returns —
the same aligned matrix, the same warning behaviour, the same error
behaviour.  On a single-run matrix with a non-noise reference the parallel
path instead errors out of `pandas.concat` on its empty task list while
the sequential path succeeds. -/
theorem c3_amended_parallel_eq_sequential {L : Type} [LinearOrder L]
    (intCast : ℤ → L) (zero : L) {cols : List (List L)} (pts : List Pt)
    (h2 : 2 ≤ cols.length) :
    remap_lbls_par intCast zero cols pts = remap_lbls intCast zero cols pts := by
  cases hs : refSelect cols with
  | none => simp only [remap_lbls_par, remap_lbls, hs]
  | some r =>
    cases hc : cols.getD r [] with
    | nil => simp only [remap_lbls_par, remap_lbls, hs, hc]
    | cons a t =>
      simp only [remap_lbls_par, remap_lbls, hs, hc]
      cases hE : (centroids (intCast (-1)) pts (a :: t)).isEmpty with
      | true => simp only [hE, if_true]
      | false =>
        simp only [hE, Bool.false_eq_true, if_false]
        have hr : r < cols.length := refSelect_lt hs
        have hsid : ((List.range cols.length).filter (fun s => s ≠ r)) ≠ [] := by
          by_cases hr0 : r = 0
          · refine List.ne_nil_of_mem (show (1 : ℕ) ∈ _ from ?_)
            refine List.mem_filter.mpr ⟨List.mem_range.mpr (by omega), ?_⟩
            simp [hr0]
          · refine List.ne_nil_of_mem (show (0 : ℕ) ∈ _ from ?_)
            refine List.mem_filter.mpr ⟨List.mem_range.mpr (by omega), ?_⟩
            simpa using Ne.symm hr0
        have hre : (((List.range cols.length).filter (fun s => s ≠ r)).map
            (fun s => _remap_n_expand (intCast (-1))
              (centroids (intCast (-1)) pts (a :: t)) pts
              (cols.getD s []))).isEmpty = false := by
          cases hm : ((List.range cols.length).filter (fun s => s ≠ r)) with
          | nil => exact absurd hm hsid
          | cons x xs => rfl
        rw [hre]
        simp only [Bool.false_eq_true, if_false]
        rw [foldl_zip_map_set]
        rfl

/-- C3, witness for the amended theorem: a two-column matrix where the
parallel and sequential paths agree. -/
theorem c3_amended_parallel_eq_sequential_witness :
    2 ≤ ([[(0 : ℤ), 0], [(5 : ℤ), 5]] : List (List ℤ)).length ∧
      remap_lbls_par (fun z : ℤ => z) 0 [[(0 : ℤ), 0], [(5 : ℤ), 5]]
          [(0, 0), (1, 0)] =
        remap_lbls (fun z : ℤ => z) 0 [[(0 : ℤ), 0], [(5 : ℤ), 5]]
          [(0, 0), (1, 0)] :=
  ⟨by decide, c3_amended_parallel_eq_sequential (fun z : ℤ => z) 0
    [(0, 0), (1, 0)] (by decide)⟩

/-! ## Claim C5 -/

/-- C5: if the Reference Run contains only the noise sentinel (so its
centroid table excluding noise is empty), the alignment step emits the
warning-level signal (the Bool `true`) and returns the input matrix
unchanged, with no error. -/
theorem c5_warn_unchanged {L : Type} [LinearOrder L]
    (intCast : ℤ → L) (zero : L) {cols : List (List L)} (pts : List Pt)
    {r : ℕ} (h1 : refSelect cols = some r) (h2 : cols.getD r [] ≠ [])
    (h3 : ∀ v ∈ cols.getD r [], v = intCast (-1)) :
    remap_lbls intCast zero cols pts = .ok (true, cols) := by
  apply remap_lbls_warn intCast zero pts h1 h2
  unfold centroids
  rw [nonNoiseKeys_eq_nil h3]
  rfl

/-- C5, witness: a 2-point, one-column matrix that is all noise. -/
theorem c5_warn_unchanged_witness :
    refSelect [[(-1 : ℤ), -1]] = some 0 ∧
      ([[(-1 : ℤ), -1]] : List (List ℤ)).getD 0 [] ≠ [] ∧
      remap_lbls (fun z => z) (0 : ℤ) [[(-1 : ℤ), -1]] [(0, 0), (1, 1)] =
        .ok (true, [[(-1 : ℤ), -1]]) :=
  ⟨by decide, by decide,
    @c5_warn_unchanged ℤ _ (fun z => z) 0 [[(-1 : ℤ), -1]] [(0, 0), (1, 1)] 0
      (by decide) (by decide) (by decide)⟩

/-! ## Claim C4 -/

/-- C4: for every Aligned Label Matrix with `R ≥ 1` columns of equal length
`n`, the Consensus Aggregator returns for each row a winning label that
occurs in the row with maximal frequency — any label first encountered
earlier in the tally's iteration order (first occurrence in the row) than
the winner has strictly smaller frequency — together with a vote share
equal to the winner's count divided by `R`, a value in `(0, 1]`. -/
theorem c4_consensus_majority {L : Type} [LinearOrder L] (d : L)
    {cols : List (List L)} {n : ℕ} (hR : 1 ≤ cols.length)
    (hWF : ∀ c ∈ cols, c.length = n) {i : ℕ} (hi : i < n) :
    ∃ w p, (ensemble d cols).getD i (d, 0) = (w, p) ∧
      w ∈ rowOf d cols i ∧
      (∀ v ∈ rowOf d cols i,
        (rowOf d cols i).count v ≤ (rowOf d cols i).count w) ∧
      (∀ v ∈ rowOf d cols i,
        (rowOf d cols i).indexOf v < (rowOf d cols i).indexOf w →
          (rowOf d cols i).count v < (rowOf d cols i).count w) ∧
      p = ((rowOf d cols i).count w : ℚ) / (cols.length : ℚ) ∧
      0 < p ∧ p ≤ 1 := by
  obtain ⟨c0, cols', rfl⟩ : ∃ c0 cols', cols = c0 :: cols' := by
    cases cols with
    | nil => simp at hR
    | cons a t => exact ⟨a, t, rfl⟩
  have hn : ((c0 :: cols').headD []).length = n := by
    simpa using hWF c0 (by simp)
  have hc0 : c0.length = n := by simpa using hn
  have hrow : rowOf d (c0 :: cols') i = c0.getD i d :: rowOf d cols' i := rfl
  have htne : tally (rowOf d (c0 :: cols') i) ≠ [] := by
    rw [hrow]
    unfold tally fok
    simp
  cases hm : maxByFirst (tally (rowOf d (c0 :: cols') i)) with
  | none => exact absurd (maxByFirst_eq_none.mp hm) htne
  | some p =>
    obtain ⟨w, c⟩ := p
    obtain ⟨hw, hc, hmax, hfirst⟩ := winner_spec hm
    subst hc
    have hg : (ensemble d (c0 :: cols')).getD i (d, 0) =
        (w, ((rowOf d (c0 :: cols') i).count w : ℚ) / ((c0 :: cols').length : ℚ)) := by
      unfold ensemble
      rw [getD_map _ _ i (by simp [hc0, hi]) 0 (d, 0)]
      rw [List.getD_eq_getElem?_getD, List.getElem?_range (by simp [hc0, hi])]
      simp only [Option.getD_some]
      rw [hm]
    have hcount_pos : 0 < (rowOf d (c0 :: cols') i).count w :=
      List.count_pos_iff.mpr hw
    have hcount_le : (rowOf d (c0 :: cols') i).count w ≤ (c0 :: cols').length := by
      have := List.count_le_length w (rowOf d (c0 :: cols') i)
      simpa [rowOf] using this
    have hlen_pos : (0 : ℚ) < ((c0 :: cols').length : ℚ) := by
      positivity
    refine ⟨w, ((rowOf d (c0 :: cols') i).count w : ℚ) / ((c0 :: cols').length : ℚ),
      hg, hw, hmax, hfirst, rfl, ?_, ?_⟩
    · apply div_pos _ hlen_pos
      exact_mod_cast hcount_pos
    · rw [div_le_one hlen_pos]
      exact_mod_cast hcount_le

/-- The aligned matrix of the module's doctest, used to witness C4. -/
def doctestAligned : List (List ℤ) :=
  [[0, 0, 7, 7, -1], [0, 0, -1, 7, 7], [0, 0, 7, 7, 7]]

/-- C4, witness at the matrix from the module's doctest (already aligned):
row 4 is evaluated concretely. -/
theorem c4_consensus_majority_witness :
    1 ≤ doctestAligned.length ∧
      (∀ c ∈ doctestAligned, c.length = 5) ∧
      ∃ w p, (ensemble (0 : ℤ) doctestAligned).getD 4 (0, 0) = (w, p) ∧
        w ∈ rowOf (0 : ℤ) doctestAligned 4 ∧
        (∀ v ∈ rowOf (0 : ℤ) doctestAligned 4,
          (rowOf (0 : ℤ) doctestAligned 4).count v ≤
            (rowOf (0 : ℤ) doctestAligned 4).count w) ∧
        (∀ v ∈ rowOf (0 : ℤ) doctestAligned 4,
          (rowOf (0 : ℤ) doctestAligned 4).indexOf v <
            (rowOf (0 : ℤ) doctestAligned 4).indexOf w →
            (rowOf (0 : ℤ) doctestAligned 4).count v <
              (rowOf (0 : ℤ) doctestAligned 4).count w) ∧
        p = ((rowOf (0 : ℤ) doctestAligned 4).count w : ℚ) / (doctestAligned.length : ℚ) ∧
        0 < p ∧ p ≤ 1 :=
  ⟨by decide, by decide,
    @c4_consensus_majority ℤ _ 0 doctestAligned 5 (by decide) (by decide) 4
      (by decide)⟩

/-! ## Claim C2 -/

/-- With `reps = 0` the draw loop is empty and `remap_lbls` fails on its
reference selection: the orchestrator surfaces the index error. -/
theorem fitE_reps_zero (D : ℕ → List Pt → List ℤ) (perms : List (List ℕ))
    (X : List Pt) (pct : ℚ) (ms : ℕ) (thr : ℚ) :
    fitE D perms X pct ms 0 thr = .error .indexError := rfl

/-- With an empty Point Set every draw dies on its empty thinned sample; the
first draw's error is surfaced. -/
theorem fitE_empty_pointset (D : ℕ → List Pt → List ℤ) (perms : List (List ℕ))
    (pct : ℚ) (ms : ℕ) (thr : ℚ) (k : ℕ) :
    fitE D perms [] pct ms (k + 1) thr = .error .emptyDataError := by
  have hdraw : ∀ p, _one_draw D p [] pct ms = .error .emptyDataError := by
    intro p
    have h0 : (⌊(([] : List Pt).length : ℚ) * pct⌋).toNat = 0 := by
      rw [List.length_nil, Nat.cast_zero, zero_mul]
      simp
    simp only [_one_draw, h0]
    rfl
  have hm : (List.range (k + 1)).mapM
      (fun i => _one_draw D (perms.getD i []) [] pct ms) =
        (Except.error AErr.emptyDataError : Except AErr (List (List String))) := by
    rw [List.range_succ_eq_map, List.mapM_cons, hdraw]
    rfl
  unfold fitE
  rw [hm]
  rfl

/-- C2, counterexample: with `reps = 0` on a one-point dataset, `fit` does
not fail with an invalid-configuration error before any clustering work —
it runs the (empty) draw loop, enters the alignment step, and dies there
with the index error of `ns_clusters[...].iloc[[0]]` on an empty selection;
with an empty Point Set the error arises inside the first draw.  The
model's error type has no invalid-configuration case at all because the
source performs no validation. -/
theorem c2_counterexample :
    fitE (fun _ pts => pts.map (fun _ => 0)) [] [(0, 0)] 1 1 0 (9 / 10) =
        .error .indexError ∧
      remap_lbls (fun z => toString z) "" ([] : List (List String)) [(0, 0)] =
        .error .indexError ∧
      fitE (fun _ pts => pts.map (fun _ => 0)) [[]] [] 1 1 1 (9 / 10) =
        .error .emptyDataError :=
  ⟨fitE_reps_zero _ _ _ _ _ _, rfl, fitE_empty_pointset _ _ _ _ _ 0⟩

/-- C2 (amended): `fit` performs no configuration validation.  With `R = 0`
the draw loop runs zero times and the call then fails inside the alignment
step's reference selection with an index error; with an empty Point Set and
`R ≥ 1` the call fails inside the first draw, when the (empty) thinned
sample is handed to the external primitives. -/
theorem c2_amended_fit_errors (D : ℕ → List Pt → List ℤ)
    (perms : List (List ℕ)) (X : List Pt) (pct : ℚ) (ms : ℕ) (thr : ℚ) :
    fitE D perms X pct ms 0 thr = .error .indexError ∧
      ∀ reps, 1 ≤ reps →
        fitE D perms [] pct ms reps thr = .error .emptyDataError := by
  refine ⟨fitE_reps_zero D perms X pct ms thr, ?_⟩
  intro reps hreps
  obtain ⟨k, rfl⟩ : ∃ k, reps = k + 1 := ⟨reps - 1, by omega⟩
  exact fitE_empty_pointset D perms pct ms thr k

/-- C2, witness for the amended theorem at concrete inputs. -/
theorem c2_amended_fit_errors_witness :
    fitE (fun _ pts => pts.map (fun _ => 0)) [[0]] [(0, 0)] 1 2 0 (9 / 10) =
        .error .indexError ∧
      ∀ reps, 1 ≤ reps →
        fitE (fun _ pts => pts.map (fun _ => 0)) [[0]] [] 1 2 reps (9 / 10) =
          .error .emptyDataError :=
  c2_amended_fit_errors (fun _ pts => pts.map (fun _ => 0)) [[0]] [(0, 0)] 1 2
    (9 / 10)

/-! ## Claim C9 -/

theorem find?_eq_head?_filter {α : Type} (p : α → Bool) (m : List α) :
    m.find? p = (m.filter p).head? := by
  induction m with
  | nil => rfl
  | cons x t ih =>
    rw [List.find?_cons, List.filter_cons]
    by_cases hp : p x
    · rw [hp]
      simp
    · have hp' : p x = false := by simpa using hp
      rw [hp']
      simpa using ih

theorem find?_reverse {α : Type} (p : α → Bool) (l : List α) :
    l.reverse.find? p = (l.filter p).getLast? := by
  rw [find?_eq_head?_filter, List.filter_reverse, List.head?_reverse]

/-- The descending threshold table of `fdr` is the reverse of the ascending
one used in the claim's reading. -/
theorem fdr_pairs_reverse (srt : List ℚ) (alpha : ℚ) (n : ℕ)
    (hlen : srt.length = n) :
    (List.range n).map
        (fun i => (srt.reverse.getD i 0, ((n - i : ℕ) : ℚ) * alpha / (n : ℚ))) =
      (((List.range n).map (fun j => j + 1)).map
        (fun k => (srt.getD (k - 1) 0, (k : ℚ) * alpha / (n : ℚ)))).reverse := by
  apply List.ext_getElem?
  intro i
  by_cases hi : i < n
  · have hmlen : ((((List.range n).map (fun j => j + 1)).map
        (fun k => (srt.getD (k - 1) 0, (k : ℚ) * alpha / (n : ℚ))))).length = n := by
      simp
    rw [List.getElem?_reverse (by rw [hmlen]; exact hi)]
    rw [hmlen]
    rw [List.getElem?_map, List.getElem?_map, List.getElem?_map]
    rw [List.getElem?_range hi, List.getElem?_range (by omega : n - 1 - i < n)]
    simp only [Option.map_some']
    have h1 : n - 1 - i + 1 = n - i := by omega
    rw [h1]
    have h3 : srt.reverse.getD i 0 = srt.getD (n - i - 1) 0 := by
      rw [List.getD_eq_getElem?_getD, List.getD_eq_getElem?_getD]
      rw [List.getElem?_reverse (by rw [hlen]; exact hi)]
      rw [hlen]
      have he : n - 1 - i = n - i - 1 := by omega
      rw [he]
    rw [h3]
  · rw [List.getElem?_eq_none (by simp; omega), List.getElem?_eq_none (by simp; omega)]

/-- C9: for every non-empty list of `n` p-values and significance level
`alpha`, `fdr` returns `k * alpha / n` for the largest 1-based rank `k`
(over the ascending sort) whose `k`-th smallest p-value is strictly below
`k * alpha / n`, and the Bonferroni bound `alpha / n` when no rank
qualifies — that is, `fdr` agrees with `fdrSpec`, the claim's reading. -/
theorem c9_fdr_correct (pvalues : List ℚ) (alpha : ℚ)
    (h : pvalues ≠ []) :
    EsdaUtil.fdr pvalues alpha = EsdaUtil.fdrSpec pvalues alpha := by
  unfold EsdaUtil.fdr EsdaUtil.fdrSpec
  dsimp only
  have hlen : (pvalues.insertionSort (· ≤ ·)).length = pvalues.length :=
    (List.perm_insertionSort (· ≤ ·) pvalues).length_eq
  rw [fdr_pairs_reverse (pvalues.insertionSort (· ≤ ·)) alpha pvalues.length hlen]
  rw [find?_reverse]
  rw [List.filter_map]
  rw [List.getLast?_map]
  have hfun : ((fun q : ℚ × ℚ => decide (q.1 < q.2)) ∘
      (fun k : ℕ => ((pvalues.insertionSort (· ≤ ·)).getD (k - 1) 0,
        (k : ℚ) * alpha / (pvalues.length : ℚ)))) =
      (fun k : ℕ => decide ((pvalues.insertionSort (· ≤ ·)).getD (k - 1) 0 <
        (k : ℚ) * alpha / (pvalues.length : ℚ))) := rfl
  rw [hfun]
  cases hl : (((List.range pvalues.length).map (fun j => j + 1)).filter
      (fun k => decide ((pvalues.insertionSort (· ≤ ·)).getD (k - 1) 0 <
        (k : ℚ) * alpha / (pvalues.length : ℚ)))).getLast? with
  | none => rfl
  | some k => rfl

/-- C9, witness: three p-values where rank 2 is the largest qualifying
rank. -/
theorem c9_fdr_correct_witness :
    ([1 / 100, 2 / 10, 3 / 100] : List ℚ) ≠ [] ∧
      EsdaUtil.fdr [1 / 100, 2 / 10, 3 / 100] (1 / 10) =
        EsdaUtil.fdrSpec [1 / 100, 2 / 10, 3 / 100] (1 / 10) :=
  ⟨by decide, c9_fdr_correct [1 / 100, 2 / 10, 3 / 100] (1 / 10) (by decide)⟩

/-! ## Claim C6 -/

/-- The concrete density primitive used for the C6 counterexample: a single
point at the origin is classified as noise, any other singleton as cluster
`0`. -/
def cexD : ℕ → List Pt → List ℤ := fun _ pts =>
  match pts with
  | [p] => if p = ((0 : ℚ), (0 : ℚ)) then [-1] else [0]
  | l => l.map (fun _ => 0)

/-- The estimator state the counterexample run produces. -/
def cexRes : FitRes :=
  ⟨["0", "0"], [("0", 2 / 3), ("0", 2 / 3)],
    [["-1", "-1"], ["0", "0"], ["0", "0"]],
    [["-1", "-1"], ["0", "0"], ["0", "0"]]⟩

/-- C6, counterexample: on two points with three draws whose first draw sees
only noise, the Reference Run (column 0, picked on a distinct-count tie) is
all noise, alignment is skipped, and the Final Labels contain the label
`"0"`, which is neither the noise sentinel nor a member of the Reference
Run's (empty) non-noise label set — the claim fails for this accepted
configuration. -/
theorem c6_counterexample :
    fitE cexD [[0, 1], [1, 0], [1, 0]] [(0, 0), (10, 10)] (1 / 2) 1 3 (1 / 2) =
        .ok cexRes ∧
      refSelect cexRes.solus = some 0 ∧
      nonNoiseKeys "-1" (cexRes.solus.getD 0 []) = [] ∧
      "0" ∈ cexRes.labels_ ∧ "0" ≠ "-1" := by
  refine ⟨by with_unfolding_all decide, by with_unfolding_all decide,
    by with_unfolding_all decide, by with_unfolding_all decide,
    by with_unfolding_all decide⟩

/-- C6 (amended): for every successful `fit`, Final Labels has exactly as
many entries as the Point Set; and *provided the Reference Run contains at
least one non-noise label*, every entry is either the noise sentinel or a
label of the Reference Run's non-noise label set.  (When the reference run
is pure noise, alignment is skipped and winning labels of other, unaligned
runs can appear.) -/
theorem c6_amended_final_labels {D : ℕ → List Pt → List ℤ}
    {perms : List (List ℕ)} {X : List Pt} {pct : ℚ} {ms reps : ℕ} {thr : ℚ}
    {res : FitRes} {r : ℕ}
    (hok : fitE D perms X pct ms reps thr = .ok res)
    (hr : refSelect res.solus = some r) :
    res.labels_.length = X.length ∧
      (nonNoiseKeys "-1" (res.solus.getD r []) ≠ [] →
        ∀ e ∈ res.labels_,
          e = "-1" ∨ e ∈ nonNoiseKeys "-1" (res.solus.getD r [])) := by
  obtain ⟨solus, b, rel, hm, hremap, rfl⟩ := fitE_ok_decomp hok
  dsimp only at hr ⊢
  have hrlt : r < solus.length := refSelect_lt hr
  have hWF : ∀ c ∈ solus, c.length = X.length := by
    intro c hc
    obtain ⟨-, hmem⟩ := mapM_ok _ _ _ hm
    obtain ⟨i, -, hdraw⟩ := hmem c hc
    exact _one_draw_ok_length hdraw
  have hsolus_ne : solus ≠ [] := by
    intro hc
    rw [hc] at hrlt
    simp at hrlt
  obtain ⟨r', hs', hcne', hcase⟩ := remap_ok_cases hremap
  obtain rfl : r = r' := Option.some_injective ℕ (hr.symm.trans hs')
  rcases hcase with ⟨hcent, rfl, hrel⟩ | ⟨hcent, rfl, rfl⟩
  · -- warning path: the matrix is returned unchanged
    obtain rfl : solus = rel := hrel.symm
    constructor
    · rw [List.length_map, ensemble_length]
      cases hsol : solus with
      | nil => exact absurd hsol hsolus_ne
      | cons c0 tl =>
        have hc0 : c0 ∈ solus := by
          rw [hsol]
          simp
        simpa using hWF c0 hc0
    · intro hkeys
      exfalso
      have h1 : nonNoiseKeys (toString (-1 : ℤ)) (solus.getD r []) = [] := by
        unfold centroids at hcent
        exact List.map_eq_nil_iff.mp hcent
      exact hkeys h1
  · -- aligned path
    have hrelWF : ∀ c ∈ alignedM (fun z : ℤ => toString z) solus X r,
        c.length = X.length := alignedM_col_length hWF hrlt
    have hrel_ne : alignedM (fun z : ℤ => toString z) solus X r ≠ [] := by
      intro hc
      have h1 := alignedM_length (fun z : ℤ => toString z) solus X r
      rw [hc] at h1
      simp at h1
      omega
    constructor
    · rw [List.length_map, ensemble_length]
      cases hrel : alignedM (fun z : ℤ => toString z) solus X r with
      | nil => exact absurd hrel hrel_ne
      | cons c0 tl =>
        have hc0 : c0 ∈ alignedM (fun z : ℤ => toString z) solus X r := by
          rw [hrel]
          simp
        simpa using hrelWF c0 hc0
    · intro hkeys e he
      obtain ⟨v, hv, rfl⟩ := List.mem_map.mp he
      by_cases hthr : v.2 < thr
      · rw [if_pos hthr]
        exact Or.inl rfl
      · rw [if_neg hthr]
        obtain ⟨i, hi, hrow⟩ := ensemble_winner_mem "" hrel_ne hrelWF hv
        obtain ⟨c, hc, hvc⟩ := rowOf_entry_mem hrelWF hi hrow
        exact alignedM_entries hcent hc hvc

/-- C6, witness for the amended theorem: a 2-point, single-draw run where
the only cluster is labelled `"0"`. -/
theorem c6_amended_final_labels_witness :
    fitE (fun _ pts => pts.map (fun _ => 0)) [[0, 1]] [(0, 0), (1, 0)] 1 1 1
        (1 / 2) = .ok ⟨["0", "0"], [("0", 1), ("0", 1)],
          [["0", "0"]], [["0", "0"]]⟩ ∧
      refSelect (FitRes.solus ⟨["0", "0"], [("0", 1), ("0", 1)],
        [["0", "0"]], [["0", "0"]]⟩) = some 0 ∧
      nonNoiseKeys "-1" ((FitRes.solus ⟨["0", "0"], [("0", 1), ("0", 1)],
        [["0", "0"]], [["0", "0"]]⟩).getD 0 []) ≠ [] ∧
      (FitRes.labels_ ⟨["0", "0"], [("0", 1), ("0", 1)],
          [["0", "0"]], [["0", "0"]]⟩).length = 2 ∧
      ∀ e ∈ FitRes.labels_ ⟨["0", "0"], [("0", 1), ("0", 1)],
          [["0", "0"]], [["0", "0"]]⟩,
        e = "-1" ∨ e ∈ nonNoiseKeys "-1" ((FitRes.solus ⟨["0", "0"],
          [("0", 1), ("0", 1)], [["0", "0"]], [["0", "0"]]⟩).getD 0 []) := by
  refine ⟨by with_unfolding_all decide, by with_unfolding_all decide,
    by with_unfolding_all decide, ?_, ?_⟩
  · exact (@c6_amended_final_labels (fun _ pts => pts.map (fun _ => 0)) [[0, 1]]
      [(0, 0), (1, 0)] 1 1 1 (1 / 2)
      ⟨["0", "0"], [("0", 1), ("0", 1)], [["0", "0"]], [["0", "0"]]⟩ 0
      (by with_unfolding_all decide) (by with_unfolding_all decide)).1
  · exact (@c6_amended_final_labels (fun _ pts => pts.map (fun _ => 0)) [[0, 1]]
      [(0, 0), (1, 0)] 1 1 1 (1 / 2)
      ⟨["0", "0"], [("0", 1), ("0", 1)], [["0", "0"]], [["0", "0"]]⟩ 0
      (by with_unfolding_all decide) (by with_unfolding_all decide)).2
      (by with_unfolding_all decide)

/-! ## Claim C10 -/

/-- C10: for every successful `fit` with a density primitive honouring its
contract (one label per sample), the label representation is string
throughout: every entry of `labels_`, `solus` and `solus_relabelled` is the
string cast of an integer label, and rows below the vote threshold carry
the string noise sentinel `"-1"` (which is `str(-1)`). -/
theorem c10_labels_are_strings {D : ℕ → List Pt → List ℤ}
    {perms : List (List ℕ)} {X : List Pt} {pct : ℚ} {ms reps : ℕ} {thr : ℚ}
    {res : FitRes} (hD : ∀ m pts, (D m pts).length = pts.length)
    (hok : fitE D perms X pct ms reps thr = .ok res) :
    (∀ c ∈ res.solus, ∀ e ∈ c, ∃ z : ℤ, e = toString z) ∧
      (∀ c ∈ res.solus_relabelled, ∀ e ∈ c, ∃ z : ℤ, e = toString z) ∧
      (∀ e ∈ res.labels_, ∃ z : ℤ, e = toString z) ∧
      (∀ i < res.labels_.length,
        res.labels_.getD i "" =
          if (res.votes.getD i ("", 0)).2 < thr then "-1"
          else (res.votes.getD i ("", 0)).1) ∧
      "-1" = toString (-1 : ℤ) := by
  obtain ⟨solus, b, rel, hm, hremap, rfl⟩ := fitE_ok_decomp hok
  dsimp only
  have hsolus : ∀ c ∈ solus, ∀ e ∈ c, ∃ z : ℤ, e = toString z := by
    intro c hc
    obtain ⟨-, hmem⟩ := mapM_ok _ _ _ hm
    obtain ⟨i, -, hdraw⟩ := hmem c hc
    exact _one_draw_ok_entries hD hdraw
  have hWF : ∀ c ∈ solus, c.length = X.length := by
    intro c hc
    obtain ⟨-, hmem⟩ := mapM_ok _ _ _ hm
    obtain ⟨i, -, hdraw⟩ := hmem c hc
    exact _one_draw_ok_length hdraw
  obtain ⟨r, hs, hcne, hcases⟩ := remap_ok_cases hremap
  have hrlt : r < solus.length := refSelect_lt hs
  have hrefmem : solus.getD r [] ∈ solus := by
    rw [List.getD_eq_getElem solus [] hrlt]
    exact List.getElem_mem hrlt
  have hrel : ∀ c ∈ rel, ∀ e ∈ c, ∃ z : ℤ, e = toString z := by
    rcases hcases with ⟨-, -, rfl⟩ | ⟨hcent, -, rfl⟩
    · exact hsolus
    · intro c hc e he
      rcases alignedM_entries hcent hc he with hn | hkey
      · exact ⟨-1, hn⟩
      · have : e ∈ solus.getD r [] := (mem_nonNoiseKeys.mp hkey).1
        exact hsolus _ hrefmem e this
  have hrelWF : ∀ c ∈ rel, c.length = X.length := by
    rcases hcases with ⟨-, -, rfl⟩ | ⟨-, -, rfl⟩
    · exact hWF
    · exact alignedM_col_length hWF hrlt
  have hrelne : rel ≠ [] := by
    rcases hcases with ⟨-, -, rfl⟩ | ⟨-, -, rfl⟩
    · intro hnil
      rw [hnil] at hrlt
      simp at hrlt
    · intro hnil
      have := alignedM_length (fun z : ℤ => toString z) solus X r
      rw [hnil] at this
      simp at this
      omega
  refine ⟨hsolus, hrel, ?_, ?_, rfl⟩
  · intro e he
    obtain ⟨v, hv, rfl⟩ := List.mem_map.mp he
    by_cases hthr : v.2 < thr
    · rw [if_pos hthr]
      exact ⟨-1, rfl⟩
    · rw [if_neg hthr]
      obtain ⟨i, hi, hrow⟩ := ensemble_winner_mem "" hrelne hrelWF hv
      obtain ⟨c, hc, hvc⟩ := rowOf_entry_mem hrelWF hi hrow
      exact hrel c hc _ hvc
  · intro i hi
    rw [List.length_map] at hi
    rw [getD_map _ _ i hi ("", 0) ""]
    rfl

/-- C10, witness: a concrete single-draw run, with the conclusion obtained
from the theorem at that run. -/
theorem c10_labels_are_strings_witness :
    fitE (fun _ pts => pts.map (fun _ => 0)) [[0, 1]] [(0, 0), (1, 0)] 1 1 1
        (1 / 2) = .ok ⟨["0", "0"], [("0", 1), ("0", 1)],
          [["0", "0"]], [["0", "0"]]⟩ ∧
      ((∀ c ∈ FitRes.solus ⟨["0", "0"], [("0", 1), ("0", 1)], [["0", "0"]],
          [["0", "0"]]⟩, ∀ e ∈ c, ∃ z : ℤ, e = toString z) ∧
        (∀ c ∈ FitRes.solus_relabelled ⟨["0", "0"], [("0", 1), ("0", 1)],
          [["0", "0"]], [["0", "0"]]⟩, ∀ e ∈ c, ∃ z : ℤ, e = toString z) ∧
        (∀ e ∈ FitRes.labels_ ⟨["0", "0"], [("0", 1), ("0", 1)], [["0", "0"]],
          [["0", "0"]]⟩, ∃ z : ℤ, e = toString z) ∧
        (∀ i < (FitRes.labels_ ⟨["0", "0"], [("0", 1), ("0", 1)], [["0", "0"]],
            [["0", "0"]]⟩).length,
          (FitRes.labels_ ⟨["0", "0"], [("0", 1), ("0", 1)], [["0", "0"]],
            [["0", "0"]]⟩).getD i "" =
            if ((FitRes.votes ⟨["0", "0"], [("0", 1), ("0", 1)], [["0", "0"]],
                [["0", "0"]]⟩).getD i ("", 0)).2 < (1 / 2 : ℚ) then "-1"
            else ((FitRes.votes ⟨["0", "0"], [("0", 1), ("0", 1)], [["0", "0"]],
              [["0", "0"]]⟩).getD i ("", 0)).1) ∧
        "-1" = toString (-1 : ℤ)) :=
  ⟨by with_unfolding_all decide,
    @c10_labels_are_strings (fun _ pts => pts.map (fun _ => 0)) [[0, 1]]
      [(0, 0), (1, 0)] 1 1 1 (1 / 2)
      ⟨["0", "0"], [("0", 1), ("0", 1)], [["0", "0"]], [["0", "0"]]⟩
      (fun m pts => by simp) (by with_unfolding_all decide)⟩

/-! ## Claim C8 -/

/-- C8: with `R = 1` and subsample fraction `1.0`, for pairwise-distinct
points and a density primitive that honours its contract (one label per
sample and order-independence over the permuted point set — the draw
shuffles the data before clustering), `fit` succeeds and the pre-threshold
Final Labels (the consensus winning labels in `votes`) are exactly the
density primitive's labels on the full Point Set, in the orchestrator's
string representation. -/
theorem c8_degenerate_consensus {D : ℕ → List Pt → List ℤ} {X : List Pt}
    {perm : List ℕ} {ms : ℕ} (thr : ℚ)
    (hX : X ≠ []) (hnd : X.Nodup) (hms : 1 ≤ ms)
    (hperm : perm.Perm (List.range X.length))
    (hlen : (D ms X).length = X.length)
    (hD : D ms (perm.map (fun i => X.getD i 0)) =
      perm.map (fun i => (D ms X).getD i (-1))) :
    ∃ res, fitE D [perm] X 1 ms 1 thr = .ok res ∧
      res.votes.map Prod.fst = (D ms X).map (fun z => toString z) := by
  have hnlen : perm.length = X.length := by
    have h := hperm.length_eq
    simpa using h
  have hXpos : 0 < X.length := List.length_pos.mpr hX
  have htake : perm.take (⌊(X.length : ℚ) * 1⌋).toNat = perm := by
    rw [mul_one, Int.floor_natCast, Int.toNat_natCast, ← hnlen]
    exact List.take_length perm
  have hmss : (if (ms : ℚ) * 1 < 1 then 1 else (⌊(ms : ℚ) * 1⌋).toNat) = ms := by
    rw [mul_one, if_neg (not_lt.mpr (by exact_mod_cast hms)), Int.floor_natCast,
      Int.toNat_natCast]
  have hthin_len : (perm.map (fun i => X.getD i 0)).length = X.length := by
    rw [List.length_map, hnlen]
  have hthinE : (perm.map (fun i => X.getD i 0)).isEmpty = false := by
    cases hth : perm.map (fun i => X.getD i 0) with
    | nil =>
      exfalso
      rw [hth] at hthin_len
      simp at hthin_len
      omega
    | cons a t => rfl
  have hdraw : _one_draw D perm X 1 ms =
      .ok (knn1Predict (perm.map (fun i => X.getD i 0))
        ((D ms (perm.map (fun i => X.getD i 0))).map (fun z => toString z)) X) := by
    unfold _one_draw
    dsimp only
    rw [htake, hmss, hthinE]
    rfl
  have hknn : knn1Predict (perm.map (fun i => X.getD i 0))
      ((D ms (perm.map (fun i => X.getD i 0))).map (fun z => toString z)) X =
        (D ms X).map (fun z => toString z) := by
    rw [hD]
    unfold knn1Predict
    apply List.ext_getElem?
    intro i
    by_cases hi : i < X.length
    · rw [List.getElem?_map, List.getElem?_map]
      rw [List.getElem?_eq_getElem hi, List.getElem?_eq_getElem (hlen ▸ hi)]
      simp only [Option.map_some']
      congr 1
      have hiperm : i ∈ perm := hperm.mem_iff.mpr (List.mem_range.mpr hi)
      obtain ⟨j, hj, hpj⟩ := List.mem_iff_getElem.mp hiperm
      have hthj : (perm.map (fun i => X.getD i 0)).getD j 0 = X[i] := by
        rw [getD_map _ _ j hj 0 (0 : Pt), List.getD_eq_getElem perm 0 hj, hpj,
          List.getD_eq_getElem X 0 hi]
      have hjlt : j < (perm.map (fun i => X.getD i 0)).length := by
        rw [List.length_map]
        exact hj
      have hmin := @nearestIdx_min X[i] (perm.map (fun i => X.getD i 0)) j hjlt
      rw [hthj] at hmin
      have hz : sqDist X[i] ((perm.map (fun i => X.getD i 0)).getD
          (nearestIdx (perm.map (fun i => X.getD i 0)) X[i]) 0) = 0 := by
        have hnn := sqDist_nonneg X[i]
          ((perm.map (fun i => X.getD i 0)).getD
            (nearestIdx (perm.map (fun i => X.getD i 0)) X[i]) 0)
        have hself : sqDist (X[i] : Pt) (X[i] : Pt) = 0 := sqDist_eq_zero_iff.mpr rfl
        rw [hself] at hmin
        linarith
      have hthne : perm.map (fun i => X.getD i 0) ≠ [] := by
        intro hc
        rw [hc] at hthinE
        rw [hc] at hthin_len
        simp at hthin_len
        omega
      have hjs : nearestIdx (perm.map (fun i => X.getD i 0)) X[i] <
          (perm.map (fun i => X.getD i 0)).length :=
        nearestIdx_lt hthne
      have hjs' : nearestIdx (perm.map (fun i => X.getD i 0)) X[i] < perm.length := by
        rw [List.length_map] at hjs
        exact hjs
      have hplt : perm.getD (nearestIdx (perm.map (fun i => X.getD i 0)) X[i]) 0 <
          X.length := by
        have hmem : perm.getD (nearestIdx (perm.map (fun i => X.getD i 0)) X[i]) 0 ∈
            perm := by
          rw [List.getD_eq_getElem perm 0 hjs']
          exact List.getElem_mem hjs'
        have := hperm.mem_iff.mp hmem
        exact List.mem_range.mp this
      have hXeq : X[perm.getD (nearestIdx (perm.map (fun i => X.getD i 0)) X[i]) 0]
          = X[i] := by
        have h1 : (perm.map (fun i => X.getD i 0)).getD
            (nearestIdx (perm.map (fun i => X.getD i 0)) X[i]) 0 =
              X.getD (perm.getD (nearestIdx (perm.map (fun i => X.getD i 0)) X[i]) 0)
                (0 : Pt) :=
          getD_map _ _ _ hjs' 0 (0 : Pt)
        have h2 := (sqDist_eq_zero_iff.mp hz).symm
        rw [h1] at h2
        rw [← List.getD_eq_getElem X 0 hplt, h2]
      have hpjs : perm.getD (nearestIdx (perm.map (fun i => X.getD i 0)) X[i]) 0 = i :=
        (List.Nodup.getElem_inj_iff hnd).mp hXeq
      rw [getD_map (fun z => toString z)
        (perm.map (fun i => (D ms X).getD i (-1))) _
        (by rw [List.length_map]; exact hjs') (-1 : ℤ) ""]
      rw [getD_map (fun i => (D ms X).getD i (-1)) perm _ hjs' 0 (-1 : ℤ)]
      rw [hpjs]
      rw [List.getD_eq_getElem (D ms X) (-1) (hlen ▸ hi)]
    · rw [List.getElem?_eq_none, List.getElem?_eq_none]
      · rw [List.length_map]
        omega
      · rw [List.length_map]
        omega
  have hc_ne : (D ms X).map (fun z => toString z) ≠ [] := by
    intro hc
    have h1 : ((D ms X).map (fun z => toString z)).length = X.length := by
      rw [List.length_map, hlen]
    rw [hc] at h1
    simp at h1
    omega
  have hsolus : (List.range 1).mapM
      (fun i => _one_draw D (([perm] : List (List ℕ)).getD i []) X 1 ms) =
        .ok [(D ms X).map (fun z => toString z)] := by
    rw [show List.range 1 = [0] from rfl, List.mapM_cons]
    rw [show ([perm] : List (List ℕ)).getD 0 [] = perm from rfl]
    rw [hdraw, hknn]
    rfl
  obtain ⟨b, hremap⟩ := remap_singleton (fun z : ℤ => toString z) ""
    ((D ms X).map (fun z => toString z)) X hc_ne
  refine ⟨⟨(ensemble "" [(D ms X).map (fun z => toString z)]).map
      (fun p => if p.2 < thr then toString (-1 : ℤ) else p.1),
    ensemble "" [(D ms X).map (fun z => toString z)],
    [(D ms X).map (fun z => toString z)],
    [(D ms X).map (fun z => toString z)]⟩, ?_, ?_⟩
  · unfold fitE
    rw [hsolus]
    simp only [bind, Except.bind]
    rw [hremap]
  · exact ensemble_singleton_winners "" ((D ms X).map (fun z => toString z))

/-- C8, witness: two distinct points, a transposing shuffle and a constant
primitive. -/
theorem c8_degenerate_consensus_witness :
    (([(0, 0), (1, 0)] : List Pt) ≠ [] ∧
        ([(0, 0), (1, 0)] : List Pt).Nodup ∧ (1 : ℕ) ≤ 1 ∧
        ([1, 0] : List ℕ).Perm (List.range 2) ∧
        ((fun (_ : ℕ) (pts : List Pt) => pts.map (fun _ => (0 : ℤ))) 1
          [(0, 0), (1, 0)]).length = 2) ∧
      ∃ res, fitE (fun _ pts => pts.map (fun _ => 0)) [[1, 0]]
          [(0, 0), (1, 0)] 1 1 1 (9 / 10) = .ok res ∧
        res.votes.map Prod.fst =
          ((fun (_ : ℕ) (pts : List Pt) => pts.map (fun _ => (0 : ℤ))) 1
            [(0, 0), (1, 0)]).map (fun z => toString z) :=
  ⟨⟨by with_unfolding_all decide, by with_unfolding_all decide, le_refl 1,
      by with_unfolding_all decide, by with_unfolding_all decide⟩,
    @c8_degenerate_consensus (fun _ pts => pts.map (fun _ => 0))
      [(0, 0), (1, 0)] [1, 0] 1 (9 / 10) (by with_unfolding_all decide)
      (by with_unfolding_all decide) (le_refl 1) (by with_unfolding_all decide)
      (by with_unfolding_all decide) (by with_unfolding_all decide)⟩

/-! ## Claim C7 -/

/-- C7: applying the alignment step (`remap_lbls`) a second time to its own
successful output returns that output unchanged — alignment is idempotent:
the reference run is re-selected, its centroid table is reproduced, and
every column of an already-aligned matrix maps to itself (merged clusters
have their mean nearest to the same reference centroid as each of their
parts).  The warning flag is reproduced as well. -/
theorem c7_alignment_idempotent {L : Type} [LinearOrder L] {intCast : ℤ → L}
    {zero : L} {cols A : List (List L)} {pts : List Pt} {b : Bool}
    (h : remap_lbls intCast zero cols pts = .ok (b, A)) :
    remap_lbls intCast zero A pts = .ok (b, A) := by
  obtain ⟨r, hs, hcne, hcase⟩ := remap_ok_cases h
  rcases hcase with ⟨hcent, rfl, rfl⟩ | ⟨hcent, rfl, rfl⟩
  · exact remap_lbls_warn intCast zero pts hs hcne hcent
  · have hr : r < cols.length := refSelect_lt hs
    have hs₂ : refSelect (alignedM intCast cols pts r) = some r :=
      refSelect_alignedM hs
    have hAr : (alignedM intCast cols pts r).getD r [] = cols.getD r [] := by
      rw [alignedM_getD intCast cols pts r hr, if_pos rfl]
    have h2 : (alignedM intCast cols pts r).getD r [] ≠ [] := by
      rw [hAr]
      exact hcne
    have h3 : centroids (intCast (-1)) pts
        ((alignedM intCast cols pts r).getD r []) ≠ [] := by
      rw [hAr]
      exact hcent
    rw [remap_lbls_eq_alignedM intCast zero pts hs₂ h2 h3]
    rw [alignedM_alignedM intCast cols pts r hr hcent]

/-- C7, witness: aligning `[[0, 0], [5, 5]]` over two points merges the
second column onto the reference labels, and aligning the output again
leaves it unchanged. -/
theorem c7_alignment_idempotent_witness :
    remap_lbls (fun z : ℤ => z) 0 [[(0 : ℤ), 0], [(0 : ℤ), 0]]
        [((0 : ℚ), (0 : ℚ)), ((1 : ℚ), (0 : ℚ))] =
      .ok (false, [[(0 : ℤ), 0], [(0 : ℤ), 0]]) :=
  c7_alignment_idempotent
    (by with_unfolding_all decide :
      remap_lbls (fun z : ℤ => z) 0 [[(0 : ℤ), 0], [(5 : ℤ), 5]]
          [((0 : ℚ), (0 : ℚ)), ((1 : ℚ), (0 : ℚ))] =
        .ok (false, [[(0 : ℤ), 0], [(0 : ℤ), 0]]))

end Claims